import Mathlib

/-!
Verification development for the EnergyMe-Home UDP log listener
(source/utils/udp_log_listener.py).

Strings are modelled as lists of characters (type Str).  Python dicts are
modelled as association lists in insertion order, matching the iteration
order of CPython dicts.  File handles and on-disk files are modelled by the
list of session keys with an open handle and a map from file key to the
list of appended records.  Machine-level concerns (sockets, signals,
wall-clock time) are threaded as explicit inputs.
-/

namespace UdpLog

abbrev Str := List Char

/-- ASCII decimal digit, the model of the regex class backslash-d. -/
def isDigitC (c : Char) : Bool := '0' ≤ c && c ≤ '9'

/-- ASCII whitespace, the model of the regex class backslash-s. -/
def isSpaceC (c : Char) : Bool :=
  c = ' ' || c = '\t' || c = '\n' || c = '\r' || c = '\x0b' || c = '\x0c'

/-- Hexadecimal character, the model of the regex class [a-fA-F0-9]. -/
def isHexC (c : Char) : Bool :=
  isDigitC c || ('a' ≤ c && c ≤ 'f') || ('A' ≤ c && c ≤ 'F')

/-- Lowercase hexadecimal character, the model of the regex class [a-f0-9]
used by the device-id extraction in UDPLogListener. -/
def isLowerHexC (c : Char) : Bool := isDigitC c || ('a' ≤ c && c ≤ 'f')

/-- Word character, the model of the regex class backslash-w (ASCII part). -/
def isWordC (c : Char) : Bool :=
  isDigitC c || ('a' ≤ c && c ≤ 'z') || ('A' ≤ c && c ≤ 'Z') || c = '_'

/-- Drop trailing characters satisfying p, via reversal. -/
def dropTrailing (p : Char → Bool) (l : Str) : Str :=
  (l.reverse.dropWhile p).reverse

/-- Model of the Python str.strip method (ASCII whitespace). -/
def stripStr (l : Str) : Str :=
  dropTrailing isSpaceC (l.dropWhile isSpaceC)

/-- Model of the Python str.lower method (ASCII range). -/
def toLowerStr (l : Str) : Str := l.map Char.toLower

/-- Model of the Python str.upper method (ASCII range). -/
def toUpperStr (l : Str) : Str := l.map Char.toUpper

/-- Numeric value of a decimal digit string, the model of the Python int()
conversion applied to a regex group of digits. -/
def digitsToNat (l : Str) : Nat :=
  l.foldl (fun n c => n * 10 + (c.toNat - '0'.toNat)) 0

/-- Does s start with the pattern pat?  Model of str.startswith. -/
def startsWithStr : Str → Str → Bool
  | [], _ => true
  | _ :: _, [] => false
  | p :: ps, x :: xs => p = x && startsWithStr ps xs

/-- Does s contain pat as a contiguous substring?  Model of the Python
`pat in s` test on strings. -/
def containsStr (pat : Str) : Str → Bool
  | [] => pat.isEmpty
  | x :: xs => startsWithStr pat (x :: xs) || containsStr pat xs

/-- Association-list lookup, the model of dict access d[k] / d.get(k). -/
def alookup (k : Str) : List (Str × α) → Option α
  | [] => none
  | (k2, v) :: t => if k2 = k then some v else alookup k t

/-- Association-list update, the model of dict assignment d[k] = v:
updates in place when the key exists, else appends (CPython dict order). -/
def aset (k : Str) (v : α) : List (Str × α) → List (Str × α)
  | [] => [(k, v)]
  | (k2, v2) :: t => if k2 = k then (k2, v) :: t else (k2, v2) :: aset k v t

/-- Association-list removal, the model of d.pop(k, None). -/
def aremove (k : Str) : List (Str × α) → List (Str × α)
  | [] => []
  | (k2, v2) :: t => if k2 = k then t else (k2, v2) :: aremove k t

/-- Removal of the first occurrence of a string from a list of keys,
the model of `del d[k]` on the key list of a dict. -/
def removeKey (k : Str) : List Str → List Str
  | [] => []
  | k2 :: t => if k2 = k then t else k2 :: removeKey k t

/-- Model of str.find for the first occurrence of a key matching p. -/
def findFirst (p : Str → Bool) : List Str → Option Str
  | [] => none
  | k :: t => if p k then some k else findFirst p t

/-!
Message parser: shallow embedding of SyslogParser.parse and its regex
SYSLOG_PATTERN.  The regex is deterministic on stripped inputs except at
two spots where the Python engine backtracks over a whitespace run; those
two spots are mirrored explicitly (see parseFn and parseMsg).
-/

/-- Parsed log record, the dictionary returned by SyslogParser.parse. -/
structure LogRec where
  priority : Nat
  timestamp : Str
  device : Str
  millis : Nat
  level : Str
  core : Nat
  function : Str
  message : Str
  raw : Str
deriving DecidableEq, Repr

/-- Consume one expected character. -/
def expectC (c : Char) : Str → Option Str
  | [] => none
  | x :: xs => if x = c then some xs else none

/-- Consume an expected literal string. -/
def expectS : Str → Str → Option Str
  | [], l => some l
  | c :: cs, l => (expectC c l).bind (expectS cs)

/-- Greedily take at least one character satisfying p (regex p+). -/
def takeW1 (p : Char → Bool) (l : Str) : Option (Str × Str) :=
  if (l.takeWhile p).isEmpty then none else some (l.takeWhile p, l.dropWhile p)

/-- Take exactly n characters, all satisfying p (regex p\x7bn\x7d). -/
def takeN : Nat → (Char → Bool) → Str → Option (Str × Str)
  | 0, _, l => some ([], l)
  | _ + 1, _, [] => none
  | n + 1, p, c :: cs =>
    if p c then (takeN n p cs).map (fun t => (c :: t.1, t.2)) else none

/-- Timestamp part of the regex: four digits, dash, two digits, dash, two
digits, T, two digits, colon, two digits, colon, two digits, dot, one or
more digits, Z.  Returns the matched text and the rest. -/
def parseTimestamp (l : Str) : Option (Str × Str) :=
  match takeN 4 isDigitC l with
  | none => none
  | some (a, r) =>
  match expectC '-' r with
  | none => none
  | some r =>
  match takeN 2 isDigitC r with
  | none => none
  | some (b, r) =>
  match expectC '-' r with
  | none => none
  | some r =>
  match takeN 2 isDigitC r with
  | none => none
  | some (c, r) =>
  match expectC 'T' r with
  | none => none
  | some r =>
  match takeN 2 isDigitC r with
  | none => none
  | some (d, r) =>
  match expectC ':' r with
  | none => none
  | some r =>
  match takeN 2 isDigitC r with
  | none => none
  | some (e, r) =>
  match expectC ':' r with
  | none => none
  | some r =>
  match takeN 2 isDigitC r with
  | none => none
  | some (f, r) =>
  match expectC '.' r with
  | none => none
  | some r =>
  match takeW1 isDigitC r with
  | none => none
  | some (g, r) =>
  match expectC 'Z' r with
  | none => none
  | some r =>
    some (a ++ '-' :: b ++ '-' :: c ++ 'T' :: d ++ ':' :: e ++ ':' :: f
      ++ '.' :: g ++ ['Z'], r)

/-- The whitespace-then-function segment of the regex, one whitespace run
followed by a nonempty colon-free group and the following colon.  When the
whitespace run is directly followed by the colon, the Python engine gives
one whitespace character back to the group (backtracking); this is the
only way that segment can still match.  Returns the whitespace part used,
the raw captured group, and the rest after the colon. -/
def parseFn (l : Str) : Option (Str × Str × Str) :=
  let ws := l.takeWhile isSpaceC
  let r := l.dropWhile isSpaceC
  let fn0 := r.takeWhile (fun c => c ≠ ':')
  let rest := r.dropWhile (fun c => c ≠ ':')
  if ws.isEmpty then none
  else if fn0.isEmpty then
    match rest with
    | [] => none
    | x :: r2 =>
      if x = ':' && 2 ≤ ws.length then
        some (ws.dropLast, ws.drop (ws.length - 1), r2)
      else none
  else
    match rest with
    | [] => none
    | x :: r2 => if x = ':' then some (ws, fn0, r2) else none

/-- The final whitespace-then-message segment of the regex: one whitespace
run, then one or more characters other than a newline; any remainder after
a newline is ignored by the unanchored match.  On a stripped input the
region after the whitespace run is never empty, so no backtracking
arises.  Returns the whitespace, the captured message, and the ignored
trailing part. -/
def parseMsg (l : Str) : Option (Str × Str × Str) :=
  let ws := l.takeWhile isSpaceC
  let r := l.dropWhile isSpaceC
  if ws.isEmpty then none
  else
    match r.takeWhile (fun c => c ≠ '\n') with
    | [] => none
    | m :: ms => some (ws, m :: ms, r.dropWhile (fun c => c ≠ '\n'))

/-- Raw captured groups of the regex match. -/
structure CoreGroups where
  pr : Str
  ts : Str
  deviceOpt : Option Str
  mill : Str
  lvl : Str
  coreDigits : Str
  fnRaw : Str
  msg : Str
deriving DecidableEq, Repr

/-- The full regex match against an already-stripped line, mirroring
SYSLOG_PATTERN group by group. -/
def parseCore (l : Str) : Option CoreGroups :=
  match expectC '<' l with
  | none => none
  | some r =>
  match takeW1 isDigitC r with
  | none => none
  | some (pr, r) =>
  match expectC '>' r with
  | none => none
  | some r =>
  match parseTimestamp r with
  | none => none
  | some (ts, r) =>
  match takeW1 isSpaceC r with
  | none => none
  | some (_, r) =>
  let dev := r.takeWhile isHexC
  match expectC '[' (r.dropWhile isHexC) with
  | none => none
  | some r =>
  match takeW1 isDigitC r with
  | none => none
  | some (mill, r) =>
  match expectC ']' r with
  | none => none
  | some r =>
  match expectC ':' r with
  | none => none
  | some r =>
  match takeW1 isSpaceC r with
  | none => none
  | some (_, r) =>
  match expectC '[' r with
  | none => none
  | some r =>
  match takeW1 (fun c => c ≠ ']') r with
  | none => none
  | some (lvl, r) =>
  match expectC ']' r with
  | none => none
  | some r =>
  match expectS ('[' :: 'C' :: 'o' :: 'r' :: 'e' :: []) r with
  | none => none
  | some r =>
  match takeW1 isDigitC r with
  | none => none
  | some (core, r) =>
  match expectC ']' r with
  | none => none
  | some r =>
  match parseFn r with
  | none => none
  | some (_, fnRaw, r) =>
  match parseMsg r with
  | none => none
  | some (_, msg, _) =>
    some { pr := pr, ts := ts, deviceOpt := if dev.isEmpty then none else some dev,
           mill := mill, lvl := lvl, coreDigits := core, fnRaw := fnRaw,
           msg := msg }

/-- Shallow embedding of SyslogParser.parse: strip the input, match the
regex, and assemble the record with the same conversions as the Python
code (int() on the numeric groups, lower() on the level, strip() on the
device, function and message groups, unknown for an absent device). -/
def parse (s : Str) : Option LogRec :=
  match parseCore (stripStr s) with
  | none => none
  | some g =>
    some {
      priority := digitsToNat g.pr
      timestamp := g.ts
      device := match g.deviceOpt with
        | some d => stripStr d
        | none => ('u' :: 'n' :: 'k' :: 'n' :: 'o' :: 'w' :: 'n' :: [])
      millis := digitsToNat g.mill
      level := toLowerStr g.lvl
      core := digitsToNat g.coreDigits
      function := stripStr g.fnRaw
      message := stripStr g.msg
      raw := s }

/-!
Display filter: shallow embedding of LogFilter.
-/

/-- The LogFilter.LEVELS table with its default of 0 for unknown names,
as used by LEVELS.get(level, 0). -/
def levelValue (s : Str) : Nat :=
  if s = ('v' :: 'e' :: 'r' :: 'b' :: 'o' :: 's' :: 'e' :: []) then 0
  else if s = ('d' :: 'e' :: 'b' :: 'u' :: 'g' :: []) then 1
  else if s = ('i' :: 'n' :: 'f' :: 'o' :: []) then 2
  else if s = ('w' :: 'a' :: 'r' :: 'n' :: 'i' :: 'n' :: 'g' :: []) then 3
  else if s = ('e' :: 'r' :: 'r' :: 'o' :: 'r' :: []) then 4
  else if s = ('f' :: 'a' :: 't' :: 'a' :: 'l' :: []) then 5
  else 0

/-- State of a LogFilter object after construction. -/
structure LogFilterM where
  minLevelValue : Nat
  excludeFiles : List Str
  excludeFunctions : List Str
deriving DecidableEq, Repr

/-- LogFilter construction: the minimum level is lowercased and looked up
with default 0, and both exclusion lists are lowercased. -/
def mkLogFilter (minLevel : Str) (exFiles exFuncs : List Str) : LogFilterM :=
  { minLevelValue := levelValue (toLowerStr minLevel)
    excludeFiles := exFiles.map toLowerStr
    excludeFunctions := exFuncs.map toLowerStr }

/-- Shallow embedding of LogFilter.should_show: reject below the minimum
level, then reject on any excluded-function substring, then on any
excluded-file substring (both matched case-insensitively against the
function field when it is nonempty), else accept. -/
def shouldShow (f : LogFilterM) (level funcField : Str) : Bool :=
  if levelValue (toLowerStr level) < f.minLevelValue then false
  else if !funcField.isEmpty && !f.excludeFunctions.isEmpty
      && f.excludeFunctions.any (fun e => containsStr e (toLowerStr funcField)) then
    false
  else if !funcField.isEmpty && !f.excludeFiles.isEmpty
      && f.excludeFiles.any (fun e => containsStr e (toLowerStr funcField)) then
    false
  else true

/-!
Device session tracker and file sink manager: shallow embedding of
UDPLogListener state and of _get_device_log_file, _log_to_device_file,
_display_parsed_message, _log_to_file and _handle_message.
-/

/-- The restart announcement phrase checked against the message text. -/
def restartMarker : Str := "Guess who's back".toList

/-- The reboot inference applied by _get_device_log_file (and, with the
display state, by _display_parsed_message): a message containing the
restart marker always means reboot; otherwise, with a recorded previous
millis value, reboot exactly when the current millis is below ten minutes,
the previous one above thirty minutes, and the current one lower. -/
def isRebootHeuristic (hasMarker : Bool) (lastOpt : Option Nat) (millis : Nat) : Bool :=
  if hasMarker then true
  else
    match lastOpt with
    | some last =>
      decide (millis < 600000) && decide (last > 1800000) && decide (millis < last)
    | none => false

/-- Shallow embedding of _extract_device_id: the last twelve characters
when they are lowercase hex, otherwise the stripped string with every
non-word character replaced by an underscore. -/
def extractDeviceId (s : Str) : Str :=
  let t := stripStr s
  if 12 ≤ t.length && (t.drop (t.length - 12)).all isLowerHexC then
    t.drop (t.length - 12)
  else
    t.map (fun c => if isWordC c then c else '_')

/-- The lifetime counters of UDPLogListener.stats. -/
structure StatsM where
  total : Nat
  parsed : Nat
  filtered : Nat
  logged : Nat
deriving DecidableEq, Repr

/-- Mutable state of the listener relevant to parsing, session tracking,
per-device files and statistics.  fileKeys models the key list of the
device_files dict (insertion order); disk maps each session key to the
records appended to its file, each record represented by the ghost
identifier of the session that wrote it; seqOf and nextSeq are ghost
instrumentation giving every created session a unique identifier so that
distinct sessions can be told apart even when their wall-clock session ids
collide. -/
structure LState where
  lastMillis : List (Str × Nat)
  sessionIds : List (Str × Str)
  lastDisplayMillis : List (Str × Nat)
  fileKeys : List Str
  disk : List (Str × List Nat)
  seqOf : List (Str × Nat)
  nextSeq : Nat
  stats : StatsM
deriving DecidableEq, Repr

/-- The listener state at startup. -/
def initState : LState :=
  { lastMillis := [], sessionIds := [], lastDisplayMillis := [], fileKeys := [],
    disk := [], seqOf := [], nextSeq := 0,
    stats := { total := 0, parsed := 0, filtered := 0, logged := 0 } }

/-- Configuration surface of the listener used by _handle_message. -/
structure ConfigM where
  filter : LogFilterM
  hasLogFile : Bool
  autoDeviceLogs : Bool
deriving DecidableEq, Repr

/-- The close-old-file section of _get_device_log_file: find the first
key of the device in the open-files dict and drop it (the handle is
closed). -/
def closeOldFile (d : Str) (st : LState) : LState :=
  match findFirst (fun k => startsWithStr (d ++ ['_']) k) st.fileKeys with
  | some oldKey => { st with fileKeys := removeKey oldKey st.fileKeys }
  | none => st

/-- The new-session section of _get_device_log_file: record the fresh
wall-clock session id (and a fresh ghost identifier), then close the old
file. -/
def newSession (now d : Str) (st : LState) : LState :=
  closeOldFile d
    { st with
      sessionIds := aset d now st.sessionIds
      seqOf := aset d st.nextSeq st.seqOf
      nextSeq := st.nextSeq + 1 }

/-- The open-file section of _get_device_log_file: when the session key
has no open handle, open its file in mode w, truncating the path on
disk. -/
def openFileIfAbsent (key : Str) (st : LState) : LState :=
  if st.fileKeys.contains key then st
  else { st with fileKeys := st.fileKeys ++ [key], disk := aset key [] st.disk }

/-- Shallow embedding of _get_device_log_file.  The wall-clock timestamp
used for a fresh session id is threaded in as now.  Returns the updated
state and the session key whose file receives the record. -/
def getDeviceLogFile (now : Str) (st : LState) (p : LogRec) : LState × Str :=
  let d := extractDeviceId p.device
  let hasMarker := containsStr restartMarker p.message
  let isReboot := isRebootHeuristic hasMarker (alookup d st.lastMillis) p.millis
  let st1 := { st with lastMillis := aset d p.millis st.lastMillis }
  let st2 :=
    if isReboot then
      { st1 with lastDisplayMillis := aremove d st1.lastDisplayMillis }
    else st1
  let st3 :=
    if isReboot || (alookup d st2.sessionIds).isNone then newSession now d st2
    else st2
  let key := d ++ '_' :: ((alookup d st3.sessionIds).getD [])
  (openFileIfAbsent key st3, key)

/-- Shallow embedding of _log_to_device_file: append one record to the
file of the given session key; the appended record carries the ghost
identifier of the writing device's current session. -/
def logToDeviceFile (st : LState) (d : Str) (key : Str) : LState :=
  { st with
    disk := aset key ((alookup key st.disk).getD []
      ++ [(alookup d st.seqOf).getD 0]) st.disk }

/-- Shallow embedding of the state effect of _display_parsed_message:
record the displayed millis value for the device. -/
def displayParsed (st : LState) (p : LogRec) : LState :=
  { st with
    lastDisplayMillis :=
      aset (extractDeviceId p.device) p.millis st.lastDisplayMillis }

/-- Shallow embedding of the state effect of _log_to_file: one increment
of the logged_messages counter per call (the consolidated write itself). -/
def logToFile (st : LState) : LState :=
  { st with stats := { st.stats with logged := st.stats.logged + 1 } }

/-- The successful-parse branch of _handle_message: count the parse,
write to the per-device file when enabled, then display or count the
record as filtered, with the consolidated write in either branch. -/
def handleParsed (cfg : ConfigM) (now : Str) (st : LState) (p : LogRec) : LState :=
  let st := { st with stats := { st.stats with parsed := st.stats.parsed + 1 } }
  let st :=
    if cfg.autoDeviceLogs then
      let res := getDeviceLogFile now st p
      logToDeviceFile res.1 (extractDeviceId p.device) res.2
    else st
  if shouldShow cfg.filter p.level p.function then
    let st := if cfg.hasLogFile then logToFile st else st
    displayParsed st p
  else
    let st := { st with stats := { st.stats with filtered := st.stats.filtered + 1 } }
    if cfg.hasLogFile then logToFile st else st

/-- Shallow embedding of _handle_message for one decoded datagram. -/
def handleMessage (cfg : ConfigM) (now : Str) (st : LState) (msg : Str) : LState :=
  let st := { st with stats := { st.stats with total := st.stats.total + 1 } }
  match parse msg with
  | some p => handleParsed cfg now st p
  | none =>
    if cfg.hasLogFile then logToFile st else st

/-- The listener loop over a list of datagrams, each paired with the
wall-clock timestamp observed while handling it. -/
def runListener (cfg : ConfigM) (events : List (Str × Str)) : LState :=
  events.foldl (fun st ev => handleMessage cfg ev.1 st ev.2) initState

/-!
Permissive byte decoding: model of bytes.decode with the utf-8 codec.
The source calls data.decode with errors set to ignore; the model also
covers the replace handler so the two behaviours can be compared.  On an
invalid sequence, the handler skips the offending bytes and, for replace,
emits U+FFFD once per error.
-/

/-- Continuation byte test. -/
def isCont (b : Nat) : Bool := 128 ≤ b && b ≤ 191

/-- Model of CPython utf-8 decoding with the ignore or replace error
handler; emitRepl selects replace.  The fuel argument makes the recursion
structural; every step consumes at least one byte and one unit of fuel, so
fuel equal to the list length is always sufficient and the zero-fuel case
is unreachable from utf8Decode. -/
def utf8Go (emitRepl : Bool) : Nat → List Nat → Str
  | 0, _ => []
  | _ + 1, [] => []
  | fuel + 1, b1 :: rest =>
    if b1 < 128 then Char.ofNat b1 :: utf8Go emitRepl fuel rest
    else if 194 ≤ b1 && b1 ≤ 223 then
      match rest with
      | b2 :: rest2 =>
        if isCont b2 then
          Char.ofNat ((b1 - 192) * 64 + (b2 - 128)) :: utf8Go emitRepl fuel rest2
        else
          (if emitRepl then [Char.ofNat 65533] else []) ++ utf8Go emitRepl fuel rest
      | [] => if emitRepl then [Char.ofNat 65533] else []
    else if 224 ≤ b1 && b1 ≤ 239 then
      match rest with
      | b2 :: b3 :: rest3 =>
        if (if b1 = 224 then 160 ≤ b2 && b2 ≤ 191
            else if b1 = 237 then 128 ≤ b2 && b2 ≤ 159
            else isCont b2) && isCont b3 then
          Char.ofNat ((b1 - 224) * 4096 + (b2 - 128) * 64 + (b3 - 128))
            :: utf8Go emitRepl fuel rest3
        else
          (if emitRepl then [Char.ofNat 65533] else []) ++ utf8Go emitRepl fuel rest
      | _ => if emitRepl then [Char.ofNat 65533] else []
    else if 240 ≤ b1 && b1 ≤ 244 then
      match rest with
      | b2 :: b3 :: b4 :: rest4 =>
        if (if b1 = 240 then 144 ≤ b2 && b2 ≤ 191
            else if b1 = 244 then 128 ≤ b2 && b2 ≤ 143
            else isCont b2) && isCont b3 && isCont b4 then
          Char.ofNat ((b1 - 240) * 262144 + (b2 - 128) * 4096
              + (b3 - 128) * 64 + (b4 - 128))
            :: utf8Go emitRepl fuel rest4
        else
          (if emitRepl then [Char.ofNat 65533] else []) ++ utf8Go emitRepl fuel rest
      | _ => if emitRepl then [Char.ofNat 65533] else []
    else
      (if emitRepl then [Char.ofNat 65533] else []) ++ utf8Go emitRepl fuel rest

/-- Model of bytes.decode with the utf-8 codec and a choice of error
handler. -/
def utf8Decode (emitRepl : Bool) (l : List Nat) : Str :=
  utf8Go emitRepl l.length l

/-- The decoding performed by _listen_loop on every received datagram:
utf-8 with the ignore error handler. -/
def decodeDatagramText (bs : List Nat) : Str := utf8Decode false bs

/-!
Helper lemmas on the association lists and string primitives.
-/

theorem alookup_aset_self (k : Str) (v : α) (l : List (Str × α)) :
    alookup k (aset k v l) = some v := by
  induction l with
  | nil => simp [aset, alookup]
  | cons h t ih =>
    obtain ⟨k2, v2⟩ := h
    by_cases hk : k2 = k
    · simp [aset, alookup, hk]
    · simp [aset, alookup, hk, ih]

theorem alookup_aset_ne (k k2 : Str) (v : α) (l : List (Str × α)) (h : k2 ≠ k) :
    alookup k (aset k2 v l) = alookup k l := by
  induction l with
  | nil => simp [aset, alookup, h]
  | cons hd t ih =>
    obtain ⟨k3, v3⟩ := hd
    by_cases hk : k3 = k2
    · subst hk
      simp [aset, alookup, h]
    · simp [aset, alookup, hk, ih]

theorem startsWithStr_iff (p s : Str) :
    startsWithStr p s = true ↔ ∃ r, s = p ++ r := by
  induction p generalizing s with
  | nil => simp [startsWithStr]
  | cons c cs ih =>
    cases s with
    | nil =>
      simp [startsWithStr]
    | cons x xs =>
      simp only [startsWithStr, Bool.and_eq_true, decide_eq_true_eq, ih]
      constructor
      · rintro ⟨rfl, r, rfl⟩
        exact ⟨r, rfl⟩
      · rintro ⟨r, h⟩
        injection h with h1 h2
        exact ⟨h1.symm, r, h2⟩

theorem containsStr_of_starts (pat s : Str) (h : startsWithStr pat s = true) :
    containsStr pat s = true := by
  cases s with
  | nil =>
    cases pat with
    | nil => simp [containsStr]
    | cons c cs => simp [startsWithStr] at h
  | cons x xs => simp [containsStr, h]

/-!
Soundness of the parser combinators: every successful step decomposes its
input into the consumed token and the rest, with the character-class
properties required by the regex.
-/

theorem expectC_sound (c : Char) (l r : Str) (h : expectC c l = some r) :
    l = c :: r := by
  cases l with
  | nil => simp [expectC] at h
  | cons x xs =>
    simp only [expectC] at h
    by_cases hx : x = c
    · simp [hx] at h
      simp [hx, h]
    · simp [hx] at h

theorem expectS_sound (cs l r : Str) (h : expectS cs l = some r) :
    l = cs ++ r := by
  induction cs generalizing l with
  | nil =>
    simp [expectS] at h
    simp [h]
  | cons c cs2 ih =>
    simp only [expectS] at h
    cases he : expectC c l with
    | none => rw [he] at h; simp at h
    | some l2 =>
      rw [he] at h
      simp at h
      have h1 := expectC_sound c l l2 he
      have h2 := ih l2 h
      simp [h1, h2]

theorem takeW1_sound (p : Char → Bool) (l t r : Str) (h : takeW1 p l = some (t, r)) :
    l = t ++ r ∧ t ≠ [] ∧ (∀ c ∈ t, p c = true) := by
  simp only [takeW1] at h
  by_cases he : (l.takeWhile p).isEmpty
  · simp [he] at h
  · simp [he] at h
    obtain ⟨h1, h2⟩ := h
    subst h1; subst h2
    refine ⟨(List.takeWhile_append_dropWhile p l).symm, ?_, ?_⟩
    · intro hc
      rw [hc] at he
      simp at he
    · intro c hc
      exact List.mem_takeWhile_imp hc

theorem takeN_sound (n : Nat) (p : Char → Bool) (l t r : Str)
    (h : takeN n p l = some (t, r)) :
    l = t ++ r ∧ t.length = n ∧ (∀ c ∈ t, p c = true) := by
  induction n generalizing l t with
  | zero =>
    simp [takeN] at h
    obtain ⟨h1, h2⟩ := h
    subst h1; subst h2
    simp
  | succ m ih =>
    cases l with
    | nil =>
      have hz : takeN (m + 1) p ([] : Str) = none := rfl
      rw [hz] at h
      exact Option.noConfusion h
    | cons c cs =>
      simp only [takeN] at h
      by_cases hc : p c
      · rw [if_pos hc] at h
        cases ht : takeN m p cs with
        | none => rw [ht] at h; simp at h
        | some pr =>
          obtain ⟨tv, tr⟩ := pr
          rw [ht] at h
          simp at h
          obtain ⟨h1, h2⟩ := h
          subst h2
          obtain ⟨e1, e2, e3⟩ := ih cs tv ht
          constructor
          · rw [← h1, e1]
            simp
          · constructor
            · rw [← h1]
              simp [e2]
            · intro x hx
              rw [← h1] at hx
              simp at hx
              rcases hx with hx | hx
              · rw [hx]; exact hc
              · exact e3 x hx
      · simp [hc] at h

/-- A whitespace character is not a colon. -/
theorem space_ne_colon (c : Char) (h : isSpaceC c = true) : c ≠ ':' := by
  intro he
  rw [he] at h
  exact absurd h (by decide)

/-- A whitespace character is sometimes a newline, but the dropWhile over
the non-newline predicate leaves a newline at the head when nonempty. -/
theorem dropWhile_head_not (p : Char → Bool) (l : Str) (x : Char) (xs : Str)
    (h : l.dropWhile p = x :: xs) : p x = false := by
  induction l with
  | nil => simp [List.dropWhile] at h
  | cons c cs ih =>
    by_cases hc : p c = true
    · rw [List.dropWhile_cons_of_pos hc] at h
      exact ih h
    · rw [List.dropWhile_cons_of_neg hc] at h
      injection h with h1 _
      rw [← h1]
      simpa using hc

theorem parseFn_sound (l w fn r : Str) (h : parseFn l = some (w, fn, r)) :
    l = w ++ fn ++ ':' :: r ∧ w ≠ [] ∧ (∀ c ∈ w, isSpaceC c = true)
      ∧ fn ≠ [] ∧ (∀ c ∈ fn, c ≠ ':') := by
  unfold parseFn at h
  simp only [] at h
  by_cases hws : (l.takeWhile isSpaceC).isEmpty
  · rw [if_pos hws] at h
    exact Option.noConfusion h
  · rw [if_neg hws] at h
    have hl : l = l.takeWhile isSpaceC ++ l.dropWhile isSpaceC :=
      (List.takeWhile_append_dropWhile isSpaceC l).symm
    have hr : l.dropWhile isSpaceC
        = (l.dropWhile isSpaceC).takeWhile (fun c => c ≠ ':')
          ++ (l.dropWhile isSpaceC).dropWhile (fun c => c ≠ ':') :=
      (List.takeWhile_append_dropWhile (fun c => c ≠ ':') (l.dropWhile isSpaceC)).symm
    have hwsmem : ∀ c ∈ l.takeWhile isSpaceC, isSpaceC c = true :=
      fun c hc => List.mem_takeWhile_imp hc
    have hwsne : l.takeWhile isSpaceC ≠ [] := by
      intro he
      rw [he] at hws
      exact hws rfl
    by_cases hfn0 : ((l.dropWhile isSpaceC).takeWhile (fun c => c ≠ ':')).isEmpty
    · rw [if_pos hfn0] at h
      cases hrest : (l.dropWhile isSpaceC).dropWhile (fun c => c ≠ ':') with
      | nil =>
        simp only [hrest] at h
        exact Option.noConfusion h
      | cons x r2 =>
        simp only [hrest] at h
        by_cases hx : x = ':'
        · subst hx
          by_cases hlen : 2 ≤ (l.takeWhile isSpaceC).length
          · have hcond : (decide ((':' : Char) = ':')
                && decide (2 ≤ (l.takeWhile isSpaceC).length)) = true := by
              simp [hlen]
            rw [if_pos hcond] at h
            simp only [Option.some.injEq, Prod.mk.injEq] at h
            obtain ⟨hw, hfn, hrr⟩ := h
            have hfn0e : (l.dropWhile isSpaceC).takeWhile (fun c => c ≠ ':') = [] := by
              simpa using hfn0
            have hsplit : l.takeWhile isSpaceC
                = (l.takeWhile isSpaceC).dropLast
                  ++ (l.takeWhile isSpaceC).drop ((l.takeWhile isSpaceC).length - 1) := by
              rw [List.dropLast_eq_take]
              exact (List.take_append_drop _ _).symm
            refine ⟨?_, ?_, ?_, ?_, ?_⟩
            · have hws2 : l.takeWhile isSpaceC = w ++ fn := by
                rw [← hw, ← hfn]
                exact hsplit
              rw [hl, hr, hfn0e, hrest, hws2, ← hrr]
              simp
            · intro he
              rw [← hw] at he
              have := congrArg List.length he
              simp [List.length_dropLast] at this
              omega
            · intro c hc
              rw [← hw] at hc
              exact hwsmem c (List.mem_of_mem_dropLast hc)
            · intro he
              rw [← hfn] at he
              have := congrArg List.length he
              simp [List.length_drop] at this
              omega
            · intro c hc
              rw [← hfn] at hc
              exact space_ne_colon c (hwsmem c (List.mem_of_mem_drop hc))
          · rw [if_neg (by simp [hlen] : ¬((':' : Char) = ':' && decide (2 ≤ (l.takeWhile isSpaceC).length)) = true)] at h
            exact Option.noConfusion h
        · rw [if_neg (by simp [hx] : ¬(decide (x = ':') && decide (2 ≤ (l.takeWhile isSpaceC).length)) = true)] at h
          exact Option.noConfusion h
    · rw [if_neg hfn0] at h
      cases hrest : (l.dropWhile isSpaceC).dropWhile (fun c => c ≠ ':') with
      | nil =>
        simp only [hrest] at h
        exact Option.noConfusion h
      | cons x r2 =>
        simp only [hrest] at h
        by_cases hx : x = ':'
        · rw [if_pos hx] at h
          simp only [Option.some.injEq, Prod.mk.injEq] at h
          obtain ⟨hw, hfn, hrr⟩ := h
          refine ⟨?_, ?_, ?_, ?_, ?_⟩
          · rw [hl, hr, hrest, hx, ← hw, ← hfn, ← hrr]
            simp
          · intro he
            rw [← hw] at he
            exact hwsne he
          · intro c hc
            rw [← hw] at hc
            exact hwsmem c hc
          · intro he
            rw [← hfn] at he
            rw [he] at hfn0
            exact hfn0 rfl
          · intro c hc
            rw [← hfn] at hc
            have := List.mem_takeWhile_imp hc
            simpa using this
        · rw [if_neg hx] at h
          exact Option.noConfusion h

theorem parseMsg_sound (l w m tr : Str) (h : parseMsg l = some (w, m, tr)) :
    l = w ++ m ++ tr ∧ w ≠ [] ∧ (∀ c ∈ w, isSpaceC c = true)
      ∧ m ≠ [] ∧ (∀ c ∈ m, c ≠ '\n') ∧ (tr = [] ∨ ∃ t2, tr = '\n' :: t2) := by
  unfold parseMsg at h
  simp only [] at h
  by_cases hws : (l.takeWhile isSpaceC).isEmpty
  · rw [if_pos hws] at h
    exact Option.noConfusion h
  · rw [if_neg hws] at h
    have hl : l = l.takeWhile isSpaceC ++ l.dropWhile isSpaceC :=
      (List.takeWhile_append_dropWhile isSpaceC l).symm
    have hr : l.dropWhile isSpaceC
        = (l.dropWhile isSpaceC).takeWhile (fun c => c ≠ '\n')
          ++ (l.dropWhile isSpaceC).dropWhile (fun c => c ≠ '\n') :=
      (List.takeWhile_append_dropWhile (fun c => c ≠ '\n') (l.dropWhile isSpaceC)).symm
    cases htk : (l.dropWhile isSpaceC).takeWhile (fun c => c ≠ '\n') with
    | nil => rw [htk] at h; exact Option.noConfusion h
    | cons mc ms =>
      rw [htk] at h
      simp only [Option.some.injEq, Prod.mk.injEq] at h
      obtain ⟨hw, hm, htr⟩ := h
      refine ⟨?_, ?_, ?_, ?_, ?_, ?_⟩
      · rw [hl, hr, htk, ← hw, ← hm, ← htr]
        simp
      · intro he
        rw [← hw] at he
        rw [he] at hws
        exact hws rfl
      · intro c hc
        rw [← hw] at hc
        exact List.mem_takeWhile_imp hc
      · intro he
        rw [← hm] at he
        exact List.noConfusion he
      · intro c hc
        rw [← hm, ← htk] at hc
        have := List.mem_takeWhile_imp hc
        simpa using this
      · rw [← htr]
        cases hdw : (l.dropWhile isSpaceC).dropWhile (fun c => c ≠ '\n') with
        | nil => exact Or.inl rfl
        | cons x xs =>
          right
          have := dropWhile_head_not (fun c => c ≠ '\n') (l.dropWhile isSpaceC) x xs hdw
          simp at this
          exact ⟨xs, by rw [this]⟩

/-- Shape of the timestamp group, as described by the spec: ISO-8601 with
fractional seconds and a trailing Z. -/
def tsShape (ts : Str) : Prop :=
  ∃ a b c d e f g,
    a.length = 4 ∧ (∀ x ∈ a, isDigitC x = true)
    ∧ b.length = 2 ∧ (∀ x ∈ b, isDigitC x = true)
    ∧ c.length = 2 ∧ (∀ x ∈ c, isDigitC x = true)
    ∧ d.length = 2 ∧ (∀ x ∈ d, isDigitC x = true)
    ∧ e.length = 2 ∧ (∀ x ∈ e, isDigitC x = true)
    ∧ f.length = 2 ∧ (∀ x ∈ f, isDigitC x = true)
    ∧ g ≠ [] ∧ (∀ x ∈ g, isDigitC x = true)
    ∧ ts = a ++ '-' :: b ++ '-' :: c ++ 'T' :: d ++ ':' :: e ++ ':' :: f
        ++ '.' :: g ++ ['Z']

theorem parseTimestamp_sound (l ts r : Str) (h : parseTimestamp l = some (ts, r)) :
    l = ts ++ r ∧ tsShape ts := by
  unfold parseTimestamp at h
  cases h1 : takeN 4 isDigitC l with
  | none => simp only [h1] at h; exact Option.noConfusion h
  | some a =>
  obtain ⟨av, ar⟩ := a
  simp only [h1] at h
  cases h2 : expectC '-' ar with
  | none => simp only [h2] at h; exact Option.noConfusion h
  | some r2 =>
  simp only [h2] at h
  cases h3 : takeN 2 isDigitC r2 with
  | none => simp only [h3] at h; exact Option.noConfusion h
  | some b =>
  obtain ⟨bv, br⟩ := b
  simp only [h3] at h
  cases h4 : expectC '-' br with
  | none => simp only [h4] at h; exact Option.noConfusion h
  | some r4 =>
  simp only [h4] at h
  cases h5 : takeN 2 isDigitC r4 with
  | none => simp only [h5] at h; exact Option.noConfusion h
  | some c =>
  obtain ⟨cv, cr⟩ := c
  simp only [h5] at h
  cases h6 : expectC 'T' cr with
  | none => simp only [h6] at h; exact Option.noConfusion h
  | some r6 =>
  simp only [h6] at h
  cases h7 : takeN 2 isDigitC r6 with
  | none => simp only [h7] at h; exact Option.noConfusion h
  | some d =>
  obtain ⟨dv, dr⟩ := d
  simp only [h7] at h
  cases h8 : expectC ':' dr with
  | none => simp only [h8] at h; exact Option.noConfusion h
  | some r8 =>
  simp only [h8] at h
  cases h9 : takeN 2 isDigitC r8 with
  | none => simp only [h9] at h; exact Option.noConfusion h
  | some e =>
  obtain ⟨ev, er⟩ := e
  simp only [h9] at h
  cases h10 : expectC ':' er with
  | none => simp only [h10] at h; exact Option.noConfusion h
  | some r10 =>
  simp only [h10] at h
  cases h11 : takeN 2 isDigitC r10 with
  | none => simp only [h11] at h; exact Option.noConfusion h
  | some f =>
  obtain ⟨fv, fr⟩ := f
  simp only [h11] at h
  cases h12 : expectC '.' fr with
  | none => simp only [h12] at h; exact Option.noConfusion h
  | some r12 =>
  simp only [h12] at h
  cases h13 : takeW1 isDigitC r12 with
  | none => simp only [h13] at h; exact Option.noConfusion h
  | some g =>
  obtain ⟨gv, gr⟩ := g
  simp only [h13] at h
  cases h14 : expectC 'Z' gr with
  | none => simp only [h14] at h; exact Option.noConfusion h
  | some r14 =>
  simp only [h14, Option.some.injEq, Prod.mk.injEq] at h
  obtain ⟨hts, hr⟩ := h
  obtain ⟨e1, e2, e3⟩ := takeN_sound 4 isDigitC l av ar h1
  have e4 := expectC_sound '-' ar r2 h2
  obtain ⟨e5, e6, e7⟩ := takeN_sound 2 isDigitC r2 bv br h3
  have e8 := expectC_sound '-' br r4 h4
  obtain ⟨e9, e10, e11⟩ := takeN_sound 2 isDigitC r4 cv cr h5
  have e12 := expectC_sound 'T' cr r6 h6
  obtain ⟨e13, e14, e15⟩ := takeN_sound 2 isDigitC r6 dv dr h7
  have e16 := expectC_sound ':' dr r8 h8
  obtain ⟨e17, e18, e19⟩ := takeN_sound 2 isDigitC r8 ev er h9
  have e20 := expectC_sound ':' er r10 h10
  obtain ⟨e21, e22, e23⟩ := takeN_sound 2 isDigitC r10 fv fr h11
  have e24 := expectC_sound '.' fr r12 h12
  obtain ⟨e25, e26, e27⟩ := takeW1_sound isDigitC r12 gv gr h13
  have e28 := expectC_sound 'Z' gr r14 h14
  constructor
  · rw [e1, e4, e5, e8, e9, e12, e13, e16, e17, e20, e21, e24, e25, e28,
      ← hts, ← hr]
    simp
  · refine ⟨av, bv, cv, dv, ev, fv, gv, e2, e3, e6, e7, e10, e11, e14, e15,
      e18, e19, e22, e23, e26, e27, ?_⟩
    rw [← hts]

/-- Soundness of the full regex match: a successful parseCore decomposes
the input line into the grammar segments, with every captured group
satisfying its character-class constraints. -/
theorem parseCore_sound (l : Str) (g : CoreGroups) (h : parseCore l = some g) :
    ∃ ws1 dev ws2 ws3 ws4 trail,
      l = '<' :: g.pr ++ '>' :: g.ts ++ ws1 ++ dev ++ '[' :: g.mill
          ++ ']' :: ':' :: ws2 ++ '[' :: g.lvl ++ ']' :: '[' :: 'C' :: 'o' :: 'r'
          :: 'e' :: g.coreDigits ++ ']' :: ws3 ++ g.fnRaw ++ ':' :: ws4
          ++ g.msg ++ trail
      ∧ g.deviceOpt = (if dev.isEmpty then none else some dev)
      ∧ g.pr ≠ [] ∧ (∀ c ∈ g.pr, isDigitC c = true)
      ∧ tsShape g.ts
      ∧ ws1 ≠ [] ∧ (∀ c ∈ ws1, isSpaceC c = true)
      ∧ (∀ c ∈ dev, isHexC c = true)
      ∧ g.mill ≠ [] ∧ (∀ c ∈ g.mill, isDigitC c = true)
      ∧ ws2 ≠ [] ∧ (∀ c ∈ ws2, isSpaceC c = true)
      ∧ g.lvl ≠ [] ∧ (∀ c ∈ g.lvl, c ≠ ']')
      ∧ g.coreDigits ≠ [] ∧ (∀ c ∈ g.coreDigits, isDigitC c = true)
      ∧ ws3 ≠ [] ∧ (∀ c ∈ ws3, isSpaceC c = true)
      ∧ g.fnRaw ≠ [] ∧ (∀ c ∈ g.fnRaw, c ≠ ':')
      ∧ ws4 ≠ [] ∧ (∀ c ∈ ws4, isSpaceC c = true)
      ∧ g.msg ≠ [] ∧ (∀ c ∈ g.msg, c ≠ '\n')
      ∧ (trail = [] ∨ ∃ t2, trail = '\n' :: t2) := by
  unfold parseCore at h
  cases h1 : expectC '<' l with
  | none => simp only [h1] at h; exact Option.noConfusion h
  | some r1 =>
  simp only [h1] at h
  cases h2 : takeW1 isDigitC r1 with
  | none => simp only [h2] at h; exact Option.noConfusion h
  | some a =>
  obtain ⟨prv, r2⟩ := a
  simp only [h2] at h
  cases h3 : expectC '>' r2 with
  | none => simp only [h3] at h; exact Option.noConfusion h
  | some r3 =>
  simp only [h3] at h
  cases h4 : parseTimestamp r3 with
  | none => simp only [h4] at h; exact Option.noConfusion h
  | some b =>
  obtain ⟨tsv, r4⟩ := b
  simp only [h4] at h
  cases h5 : takeW1 isSpaceC r4 with
  | none => simp only [h5] at h; exact Option.noConfusion h
  | some c =>
  obtain ⟨ws1v, r5⟩ := c
  simp only [h5] at h
  cases h6 : expectC '[' (r5.dropWhile isHexC) with
  | none => simp only [h6] at h; exact Option.noConfusion h
  | some r6 =>
  simp only [h6] at h
  cases h7 : takeW1 isDigitC r6 with
  | none => simp only [h7] at h; exact Option.noConfusion h
  | some d =>
  obtain ⟨millv, r7⟩ := d
  simp only [h7] at h
  cases h8 : expectC ']' r7 with
  | none => simp only [h8] at h; exact Option.noConfusion h
  | some r8 =>
  simp only [h8] at h
  cases h9 : expectC ':' r8 with
  | none => simp only [h9] at h; exact Option.noConfusion h
  | some r9 =>
  simp only [h9] at h
  cases h10 : takeW1 isSpaceC r9 with
  | none => simp only [h10] at h; exact Option.noConfusion h
  | some e =>
  obtain ⟨ws2v, r10⟩ := e
  simp only [h10] at h
  cases h11 : expectC '[' r10 with
  | none => simp only [h11] at h; exact Option.noConfusion h
  | some r11 =>
  simp only [h11] at h
  cases h12 : takeW1 (fun ch => ch ≠ ']') r11 with
  | none => simp only [h12] at h; exact Option.noConfusion h
  | some f =>
  obtain ⟨lvlv, r12⟩ := f
  simp only [h12] at h
  cases h13 : expectC ']' r12 with
  | none => simp only [h13] at h; exact Option.noConfusion h
  | some r13 =>
  simp only [h13] at h
  cases h14 : expectS ('[' :: 'C' :: 'o' :: 'r' :: 'e' :: []) r13 with
  | none => simp only [h14] at h; exact Option.noConfusion h
  | some r14 =>
  simp only [h14] at h
  cases h15 : takeW1 isDigitC r14 with
  | none => simp only [h15] at h; exact Option.noConfusion h
  | some cg =>
  obtain ⟨corev, r15⟩ := cg
  simp only [h15] at h
  cases h16 : expectC ']' r15 with
  | none => simp only [h16] at h; exact Option.noConfusion h
  | some r16 =>
  simp only [h16] at h
  cases h17 : parseFn r16 with
  | none => simp only [h17] at h; exact Option.noConfusion h
  | some fnp =>
  obtain ⟨ws3v, fnv, r17⟩ := fnp
  simp only [h17] at h
  cases h18 : parseMsg r17 with
  | none => simp only [h18] at h; exact Option.noConfusion h
  | some mp =>
  obtain ⟨ws4v, msgv, trailv⟩ := mp
  simp only [h18, Option.some.injEq] at h
  have e1 := expectC_sound '<' l r1 h1
  obtain ⟨e2, e3, e4⟩ := takeW1_sound isDigitC r1 prv r2 h2
  have e5 := expectC_sound '>' r2 r3 h3
  obtain ⟨e6, e7⟩ := parseTimestamp_sound r3 tsv r4 h4
  obtain ⟨e8, e9, e10⟩ := takeW1_sound isSpaceC r4 ws1v r5 h5
  have e11 : r5 = r5.takeWhile isHexC ++ r5.dropWhile isHexC :=
    (List.takeWhile_append_dropWhile isHexC r5).symm
  have e12 := expectC_sound '[' (r5.dropWhile isHexC) r6 h6
  obtain ⟨e13, e14, e15⟩ := takeW1_sound isDigitC r6 millv r7 h7
  have e16 := expectC_sound ']' r7 r8 h8
  have e17 := expectC_sound ':' r8 r9 h9
  obtain ⟨e18, e19, e20⟩ := takeW1_sound isSpaceC r9 ws2v r10 h10
  have e21 := expectC_sound '[' r10 r11 h11
  obtain ⟨e22, e23, e24⟩ := takeW1_sound (fun ch => ch ≠ ']') r11 lvlv r12 h12
  have e25 := expectC_sound ']' r12 r13 h13
  have e26 := expectS_sound ('[' :: 'C' :: 'o' :: 'r' :: 'e' :: []) r13 r14 h14
  obtain ⟨e27, e28, e29⟩ := takeW1_sound isDigitC r14 corev r15 h15
  have e30 := expectC_sound ']' r15 r16 h16
  obtain ⟨e31, e32, e33, e34, e35⟩ := parseFn_sound r16 ws3v fnv r17 h17
  obtain ⟨e36, e37, e38, e39, e40, e41⟩ := parseMsg_sound r17 ws4v msgv trailv h18
  refine ⟨ws1v, r5.takeWhile isHexC, ws2v, ws3v, ws4v, trailv, ?_, ?_⟩
  · rw [← h]
    simp only []
    rw [e1, e2, e5, e6, e8]
    nth_rewrite 1 [e11]
    rw [e12, e13, e16, e17, e18, e21, e22, e25, e26, e27, e30, e31, e36]
    simp
  · rw [← h]
    exact ⟨rfl, e3, e4, e7, e9, e10, fun ch hc => List.mem_takeWhile_imp hc,
      e14, e15, e19, e20, e23, fun ch hc => by simpa using e24 ch hc,
      e28, e29, e32, e33, e34, e35, e37, e38, e39, e40, e41⟩

/-- Membership in a stripped string implies membership in the original. -/
theorem mem_stripStr (c : Char) (l : Str) (h : c ∈ stripStr l) : c ∈ l := by
  unfold stripStr dropTrailing at h
  rw [List.mem_reverse] at h
  have h2 := (List.dropWhile_sublist (l := (l.dropWhile isSpaceC).reverse)
    (p := isSpaceC)).mem h
  rw [List.mem_reverse] at h2
  exact (List.dropWhile_sublist (l := l) (p := isSpaceC)).mem h2

/-- Modelled from the spec, section 4.1: the grammar of one log line.  A
string conforms when, after stripping, it decomposes into the priority in
angle brackets, an ISO-8601 timestamp, whitespace, an optional run of
hexadecimal characters, the bracketed millis counter and colon,
whitespace, the bracketed level, the bracketed core index, whitespace, the
colon-terminated function text, whitespace, and a nonempty single-line
message, with anything after a newline ignored by the unanchored match. -/
def ConformsSpec (s : Str) : Prop :=
  ∃ pr ts ws1 dev mill ws2 lvl core ws3 fn ws4 msg trail,
    stripStr s = '<' :: pr ++ '>' :: ts ++ ws1 ++ dev ++ '[' :: mill
        ++ ']' :: ':' :: ws2 ++ '[' :: lvl ++ ']' :: '[' :: 'C' :: 'o' :: 'r'
        :: 'e' :: core ++ ']' :: ws3 ++ fn ++ ':' :: ws4 ++ msg ++ trail
    ∧ pr ≠ [] ∧ (∀ c ∈ pr, isDigitC c = true)
    ∧ tsShape ts
    ∧ ws1 ≠ [] ∧ (∀ c ∈ ws1, isSpaceC c = true)
    ∧ (∀ c ∈ dev, isHexC c = true)
    ∧ mill ≠ [] ∧ (∀ c ∈ mill, isDigitC c = true)
    ∧ ws2 ≠ [] ∧ (∀ c ∈ ws2, isSpaceC c = true)
    ∧ lvl ≠ [] ∧ (∀ c ∈ lvl, c ≠ ']')
    ∧ core ≠ [] ∧ (∀ c ∈ core, isDigitC c = true)
    ∧ ws3 ≠ [] ∧ (∀ c ∈ ws3, isSpaceC c = true)
    ∧ fn ≠ [] ∧ (∀ c ∈ fn, c ≠ ':')
    ∧ ws4 ≠ [] ∧ (∀ c ∈ ws4, isSpaceC c = true)
    ∧ msg ≠ [] ∧ (∀ c ∈ msg, c ≠ '\n')
    ∧ (trail = [] ∨ ∃ t2, trail = '\n' :: t2)

/-- A successful parse means the input conformed to the grammar. -/
theorem parse_conforms (s : Str) (r : LogRec) (h : parse s = some r) :
    ConformsSpec s := by
  unfold parse at h
  cases hg : parseCore (stripStr s) with
  | none => simp only [hg] at h; exact Option.noConfusion h
  | some g =>
    obtain ⟨ws1, dev, ws2, ws3, ws4, trail, heq, _, h1, h2, h3, h4, h5, h6,
      h7, h8, h9, h10, h11, h12, h13, h14, h15, h16, h17, h18, h19, h20,
      h21, h22⟩ := parseCore_sound (stripStr s) g hg
    exact ⟨g.pr, g.ts, ws1, dev, g.mill, ws2, g.lvl, g.coreDigits, ws3,
      g.fnRaw, ws4, g.msg, trail, heq, h1, h2, h3, h4, h5, h6, h7, h8, h9,
      h10, h11, h12, h13, h14, h15, h16, h17, h18, h19, h20, h21, h22⟩

/-- The device field of every parsed record is either a run of hexadecimal
characters or the literal unknown. -/
theorem parse_device_wf (s : Str) (r : LogRec) (h : parse s = some r) :
    (∀ c ∈ r.device, isHexC c = true)
      ∨ r.device = ('u' :: 'n' :: 'k' :: 'n' :: 'o' :: 'w' :: 'n' :: []) := by
  unfold parse at h
  cases hg : parseCore (stripStr s) with
  | none => simp only [hg] at h; exact Option.noConfusion h
  | some g =>
    simp only [hg, Option.some.injEq] at h
    obtain ⟨ws1, dev, ws2, ws3, ws4, trail, heq, hdev, rest⟩ :=
      parseCore_sound (stripStr s) g hg
    have hhex : ∀ c ∈ dev, isHexC c = true := rest.2.2.2.2.2.1
    rw [← h]
    simp only []
    rw [hdev]
    by_cases hde : dev.isEmpty
    · rw [if_pos hde]
      exact Or.inr rfl
    · rw [if_neg hde]
      exact Or.inl (fun c hc => hhex c (mem_stripStr c dev hc))

/-!
Claim theorems, first group.
-/
/-- C6: an input that does not conform to the section 4.1 grammar is
rejected: SyslogParser.parse returns no match (and, being a total
function of the embedding, never raises). -/
theorem C6_nonconforming_no_match (s : Str) (h : ¬ ConformsSpec s) :
    parse s = none := by
  cases hp : parse s with
  | none => rfl
  | some r => exact absurd (parse_conforms s r hp) h

theorem C6_nonconforming_no_match_witness :
    parse ('h' :: 'i' :: []) = none := by
  refine C6_nonconforming_no_match ('h' :: 'i' :: []) ?_
  rintro ⟨pr, ts, ws1, dev, mill, ws2, lvl, core, ws3, fn, ws4, msg, trail,
    heq, -⟩
  have hs : stripStr ('h' :: 'i' :: []) = ('h' :: 'i' :: []) := by decide
  rw [hs] at heq
  exact absurd (List.head_eq_of_cons_eq heq) (by decide)

/-- Projection facts for the file-lifecycle stages. -/
theorem closeOldFile_sessionIds (d : Str) (st : LState) :
    (closeOldFile d st).sessionIds = st.sessionIds := by
  unfold closeOldFile
  split <;> rfl

theorem closeOldFile_seqOf (d : Str) (st : LState) :
    (closeOldFile d st).seqOf = st.seqOf := by
  unfold closeOldFile
  split <;> rfl

theorem closeOldFile_nextSeq (d : Str) (st : LState) :
    (closeOldFile d st).nextSeq = st.nextSeq := by
  unfold closeOldFile
  split <;> rfl

theorem closeOldFile_disk (d : Str) (st : LState) :
    (closeOldFile d st).disk = st.disk := by
  unfold closeOldFile
  split <;> rfl

theorem closeOldFile_stats (d : Str) (st : LState) :
    (closeOldFile d st).stats = st.stats := by
  unfold closeOldFile
  split <;> rfl

theorem newSession_sessionIds (now d : Str) (st : LState) :
    (newSession now d st).sessionIds = aset d now st.sessionIds := by
  unfold newSession
  rw [closeOldFile_sessionIds]

theorem newSession_seqOf (now d : Str) (st : LState) :
    (newSession now d st).seqOf = aset d st.nextSeq st.seqOf := by
  unfold newSession
  rw [closeOldFile_seqOf]

theorem newSession_nextSeq (now d : Str) (st : LState) :
    (newSession now d st).nextSeq = st.nextSeq + 1 := by
  unfold newSession
  rw [closeOldFile_nextSeq]

theorem newSession_stats (now d : Str) (st : LState) :
    (newSession now d st).stats = st.stats := by
  unfold newSession
  rw [closeOldFile_stats]

theorem openFile_sessionIds (key : Str) (st : LState) :
    (openFileIfAbsent key st).sessionIds = st.sessionIds := by
  unfold openFileIfAbsent
  split <;> rfl

theorem openFile_seqOf (key : Str) (st : LState) :
    (openFileIfAbsent key st).seqOf = st.seqOf := by
  unfold openFileIfAbsent
  split <;> rfl

theorem openFile_nextSeq (key : Str) (st : LState) :
    (openFileIfAbsent key st).nextSeq = st.nextSeq := by
  unfold openFileIfAbsent
  split <;> rfl

theorem openFile_stats (key : Str) (st : LState) :
    (openFileIfAbsent key st).stats = st.stats := by
  unfold openFileIfAbsent
  split <;> rfl

/-- C2: a message containing the restart marker makes the session tracker
infer a reboot and allocate a fresh session (a new wall-clock session id
and a new ghost session identifier), whatever the current millis and any
recorded lastSeenMillis; moreover the marker branch decides reboot before
the millis heuristic is consulted. -/
theorem C2_marker_new_session (st : LState) (p : LogRec) (now : Str)
    (hm : containsStr restartMarker p.message = true) :
    isRebootHeuristic (containsStr restartMarker p.message)
        (alookup (extractDeviceId p.device) st.lastMillis) p.millis = true
    ∧ alookup (extractDeviceId p.device)
        (getDeviceLogFile now st p).1.sessionIds = some now
    ∧ alookup (extractDeviceId p.device)
        (getDeviceLogFile now st p).1.seqOf = some st.nextSeq
    ∧ (getDeviceLogFile now st p).1.nextSeq = st.nextSeq + 1
    ∧ (∀ lastOpt millis, isRebootHeuristic true lastOpt millis = true) := by
  have hreb : ∀ lastOpt millis, isRebootHeuristic true lastOpt millis = true := by
    intro lastOpt millis
    simp [isRebootHeuristic]
  refine ⟨by rw [hm]; exact hreb _ _, ?_, ?_, ?_, hreb⟩ <;>
  · unfold getDeviceLogFile
    simp only []
    rw [hm]
    rw [hreb (alookup (extractDeviceId p.device) st.lastMillis) p.millis]
    simp only [Bool.true_or, if_true]
    simp only [openFile_sessionIds, openFile_seqOf, openFile_nextSeq,
      newSession_sessionIds, newSession_seqOf, newSession_nextSeq]
    try simp [alookup_aset_self]

theorem C2_marker_new_session_witness :
    alookup (extractDeviceId ('0' :: '0' :: '1' :: '1' :: '2' :: '2' :: '3'
        :: '3' :: '4' :: '4' :: '5' :: '5' :: []))
      (getDeviceLogFile ('t' :: '1' :: []) initState
        { priority := 14, timestamp := [],
          device := ('0' :: '0' :: '1' :: '1' :: '2' :: '2' :: '3' :: '3'
            :: '4' :: '4' :: '5' :: '5' :: []),
          millis := 5, level := [], core := 0, function := [],
          message := "ESP32 - Guess who's back".toList,
          raw := [] }).1.sessionIds = some ('t' :: '1' :: []) :=
  (C2_marker_new_session initState
    { priority := 14, timestamp := [],
      device := ('0' :: '0' :: '1' :: '1' :: '2' :: '2' :: '3' :: '3'
        :: '4' :: '4' :: '5' :: '5' :: []),
      millis := 5, level := [], core := 0, function := [],
      message := "ESP32 - Guess who's back".toList,
      raw := [] } ('t' :: '1' :: []) (by decide)).2.1

/-- The session tracker never touches the statistics counters. -/
theorem getDeviceLogFile_stats (now : Str) (st : LState) (p : LogRec) :
    (getDeviceLogFile now st p).1.stats = st.stats := by
  unfold getDeviceLogFile
  simp only []
  rw [openFile_stats]
  by_cases hr : isRebootHeuristic (containsStr restartMarker p.message)
      (alookup (extractDeviceId p.device) st.lastMillis) p.millis = true
  · rw [hr]
    simp only [Bool.true_or, if_true]
    rw [newSession_stats]
  · rw [Bool.not_eq_true] at hr
    rw [hr]
    simp only [Bool.false_eq_true, if_false, Bool.false_or]
    split
    · rw [newSession_stats]
    · rfl

/-- Per-datagram statistics effect of _handle_message: the total counter
always advances by one; the logged counter advances by one exactly when
the consolidated log file is open; the parsed counter advances by at most
one; the filtered counter advances only together with the parsed one. -/
theorem handleMessage_stats (cfg : ConfigM) (now : Str) (st : LState) (msg : Str) :
    (handleMessage cfg now st msg).stats.total = st.stats.total + 1
    ∧ (handleMessage cfg now st msg).stats.logged
        = st.stats.logged + (if cfg.hasLogFile then 1 else 0)
    ∧ ((handleMessage cfg now st msg).stats.parsed = st.stats.parsed
        ∨ (handleMessage cfg now st msg).stats.parsed = st.stats.parsed + 1)
    ∧ ((handleMessage cfg now st msg).stats.filtered = st.stats.filtered
        ∨ ((handleMessage cfg now st msg).stats.filtered = st.stats.filtered + 1
            ∧ (handleMessage cfg now st msg).stats.parsed = st.stats.parsed + 1)) := by
  unfold handleMessage
  cases hp : parse msg with
  | none =>
    by_cases hlf : cfg.hasLogFile <;> simp [hp, hlf, logToFile]
  | some p =>
    by_cases had : cfg.autoDeviceLogs <;>
      by_cases hss : shouldShow cfg.filter p.level p.function <;>
        by_cases hlf : cfg.hasLogFile <;>
          simp [hp, had, hss, hlf, handleParsed, logToFile, displayParsed,
            logToDeviceFile, getDeviceLogFile_stats]

/-- C10 and C8 share this invariant-preservation step. -/
theorem stats_inv_step (cfg : ConfigM) (now : Str) (st : LState) (msg : Str)
    (h1 : st.stats.filtered ≤ st.stats.parsed)
    (h2 : st.stats.parsed ≤ st.stats.total) :
    (handleMessage cfg now st msg).stats.filtered
        ≤ (handleMessage cfg now st msg).stats.parsed
    ∧ (handleMessage cfg now st msg).stats.parsed
        ≤ (handleMessage cfg now st msg).stats.total := by
  obtain ⟨e1, _, e3, e4⟩ := handleMessage_stats cfg now st msg
  constructor
  · rcases e4 with e4 | ⟨e4a, e4b⟩
    · rcases e3 with e3 | e3 <;> omega
    · omega
  · rcases e3 with e3 | e3 <;> omega

theorem stats_inv_run (cfg : ConfigM) (events : List (Str × Str)) (st : LState)
    (h1 : st.stats.filtered ≤ st.stats.parsed)
    (h2 : st.stats.parsed ≤ st.stats.total) :
    (events.foldl (fun s ev => handleMessage cfg ev.1 s ev.2) st).stats.filtered
        ≤ (events.foldl (fun s ev => handleMessage cfg ev.1 s ev.2) st).stats.parsed
    ∧ (events.foldl (fun s ev => handleMessage cfg ev.1 s ev.2) st).stats.parsed
        ≤ (events.foldl (fun s ev => handleMessage cfg ev.1 s ev.2) st).stats.total := by
  induction events generalizing st with
  | nil => exact ⟨h1, h2⟩
  | cons ev evs ih =>
    obtain ⟨g1, g2⟩ := stats_inv_step cfg ev.1 st ev.2 h1 h2
    exact ih (handleMessage cfg ev.1 st ev.2) g1 g2

/-- C10: after any sequence of handled datagrams the counters satisfy
filtered at most parsed at most total, so the displayed-message count
reported at shutdown as parsed minus filtered is never negative. -/
theorem C10_stats_ordered (cfg : ConfigM) (events : List (Str × Str)) :
    (runListener cfg events).stats.filtered
        ≤ (runListener cfg events).stats.parsed
    ∧ (runListener cfg events).stats.parsed
        ≤ (runListener cfg events).stats.total := by
  unfold runListener
  exact stats_inv_run cfg events initState (by simp [initState]) (by simp [initState])

/-- C8 as amended: the persisted counter advances by exactly one per
datagram precisely when the consolidated log file is open, independently
of whether a per-device write occurs. -/
theorem C8_logged_counts_consolidated_only (cfg : ConfigM) (now : Str)
    (st : LState) (msg : Str) :
    (handleMessage cfg now st msg).stats.logged
      = st.stats.logged + (if cfg.hasLogFile then 1 else 0) :=
  (handleMessage_stats cfg now st msg).2.1

/-- C8 counterexample: with no consolidated file and device logs enabled,
handling one parsed datagram appends a record to the per-device file (a
write to a sink occurs) while the persisted counter stays zero, contrary
to the claim that it advances whenever a write occurs to any sink. -/
theorem C8_cex :
    (handleMessage
        { filter := mkLogFilter ('v' :: 'e' :: 'r' :: 'b' :: 'o' :: 's'
            :: 'e' :: []) [] [],
          hasLogFile := false, autoDeviceLogs := true }
        ('t' :: '1' :: []) initState
        "<14>2025-01-01T00:00:00.000Z 001122334455[50000]: [INFO][Core0] src/main.cpp[loop]: hello".toList).disk
      = [("001122334455_t1".toList, [0])]
    ∧ (handleMessage
        { filter := mkLogFilter ('v' :: 'e' :: 'r' :: 'b' :: 'o' :: 's'
            :: 'e' :: []) [] [],
          hasLogFile := false, autoDeviceLogs := true }
        ('t' :: '1' :: []) initState
        "<14>2025-01-01T00:00:00.000Z 001122334455[50000]: [INFO][Core0] src/main.cpp[loop]: hello".toList).stats.logged
      = 0 := by
  decide


/-- C9 as amended: decoding is the utf-8 ignore handler, so an invalid
lead byte is dropped from the decoded text without any substitution, and
decoding is a total function of the received bytes (never raising). -/
theorem C9_invalid_lead_byte_dropped (bs : List Nat) :
    decodeDatagramText (255 :: bs) = decodeDatagramText bs := by
  unfold decodeDatagramText utf8Decode
  rw [List.length_cons]
  rw [utf8Go.eq_def]
  norm_num

/-- C9 counterexample: the bytes 255, 65 decode to the single character A,
with the invalid byte dropped rather than substituted; the replace handler
would have produced the U+FFFD placeholder followed by A. -/
theorem C9_cex :
    decodeDatagramText (255 :: 65 :: []) = ('A' :: [])
    ∧ decodeDatagramText (255 :: 65 :: []) ≠ utf8Decode true (255 :: 65 :: [])
    ∧ utf8Decode true (255 :: 65 :: []) = (Char.ofNat 65533 :: 'A' :: []) := by
  decide


/-!
Completeness direction of the parser: rendering well-formed fields in the
grammar layout and parsing recovers the fields.
-/

theorem takeWhile_app_pos (p : Char → Bool) (t : Str) (x : Char) (r : Str)
    (ht : ∀ c ∈ t, p c = true) (hx : p x = false) :
    (t ++ x :: r).takeWhile p = t ∧ (t ++ x :: r).dropWhile p = x :: r := by
  induction t with
  | nil => simp [List.takeWhile, List.dropWhile, hx]
  | cons a s ih =>
    have ha : p a = true := ht a (by simp)
    have ihs := ih (fun c hc => ht c (by simp [hc]))
    simp [List.takeWhile, List.dropWhile, ha, ihs.1, ihs.2]

theorem takeW1_app (p : Char → Bool) (t : Str) (x : Char) (r : Str)
    (ht : ∀ c ∈ t, p c = true) (hx : p x = false) (hne : t ≠ []) :
    takeW1 p (t ++ x :: r) = some (t, x :: r) := by
  obtain ⟨h1, h2⟩ := takeWhile_app_pos p t x r ht hx
  unfold takeW1
  rw [h1, h2]
  cases t with
  | nil => exact absurd rfl hne
  | cons a s => rfl

theorem takeN_app (n : Nat) (p : Char → Bool) (t r : Str)
    (hlen : t.length = n) (ht : ∀ c ∈ t, p c = true) :
    takeN n p (t ++ r) = some (t, r) := by
  subst hlen
  induction t with
  | nil => simp [takeN]
  | cons c cs ih =>
    show takeN (cs.length + 1) p (c :: (cs ++ r)) = some (c :: cs, r)
    simp only [takeN]
    rw [if_pos (ht c (by simp))]
    rw [ih (fun x hx => ht x (by simp [hx]))]
    rfl

theorem expectC_self (c : Char) (r : Str) : expectC c (c :: r) = some r := by
  simp [expectC]

theorem expectS_app (cs r : Str) : expectS cs (cs ++ r) = some r := by
  induction cs with
  | nil => rfl
  | cons c cs2 ih =>
    simp only [List.cons_append, expectS, expectC_self, Option.bind]
    exact ih

theorem dropWhile_eq_self_of_headD (p : Char → Bool) (l : Str)
    (h : p (l.headD 'x') = false) : l.dropWhile p = l := by
  cases l with
  | nil => rfl
  | cons c t =>
    simp only [List.headD] at h
    rw [List.dropWhile_cons_of_neg (by simp [h])]

/-- A string whose first and last characters are not whitespace strips to
itself; the defaults make the empty string trivially covered. -/
theorem stripStr_eq_self (l : Str) (hh : isSpaceC (l.headD 'x') = false)
    (hl : isSpaceC (l.getLastD 'x') = false) : stripStr l = l := by
  unfold stripStr dropTrailing
  rw [dropWhile_eq_self_of_headD isSpaceC l hh]
  rw [dropWhile_eq_self_of_headD isSpaceC l.reverse]
  · exact List.reverse_reverse l
  · rw [List.headD_eq_head?_getD, List.head?_reverse, ← List.getLastD_eq_getLast?]
    exact hl

theorem parseTimestamp_app (a b c d e f g r : Str)
    (ha : a.length = 4) (hax : ∀ x ∈ a, isDigitC x = true)
    (hb : b.length = 2) (hbx : ∀ x ∈ b, isDigitC x = true)
    (hc : c.length = 2) (hcx : ∀ x ∈ c, isDigitC x = true)
    (hd : d.length = 2) (hdx : ∀ x ∈ d, isDigitC x = true)
    (he : e.length = 2) (hex : ∀ x ∈ e, isDigitC x = true)
    (hf : f.length = 2) (hfx : ∀ x ∈ f, isDigitC x = true)
    (hg : g ≠ []) (hgx : ∀ x ∈ g, isDigitC x = true) :
    parseTimestamp (a ++ '-' :: (b ++ '-' :: (c ++ 'T' :: (d ++ ':' :: (e
        ++ ':' :: (f ++ '.' :: (g ++ 'Z' :: r)))))))
      = some (a ++ '-' :: (b ++ '-' :: (c ++ 'T' :: (d ++ ':' :: (e ++ ':'
        :: (f ++ '.' :: (g ++ ['Z'])))))), r) := by
  unfold parseTimestamp
  simp only [List.cons_append, List.append_assoc]
  rw [takeN_app 4 isDigitC a _ ha hax]
  simp only []
  rw [expectC_self]
  simp only []
  rw [takeN_app 2 isDigitC b _ hb hbx]
  simp only []
  rw [expectC_self]
  simp only []
  rw [takeN_app 2 isDigitC c _ hc hcx]
  simp only []
  rw [expectC_self]
  simp only []
  rw [takeN_app 2 isDigitC d _ hd hdx]
  simp only []
  rw [expectC_self]
  simp only []
  rw [takeN_app 2 isDigitC e _ he hex]
  simp only []
  rw [expectC_self]
  simp only []
  rw [takeN_app 2 isDigitC f _ hf hfx]
  simp only []
  rw [expectC_self]
  simp only []
  rw [takeW1_app isDigitC g 'Z' r hgx (by decide) hg]
  simp only []
  rw [expectC_self]

theorem parseFn_app (fn r : Str) (hne : fn ≠ []) (hnc : ∀ c ∈ fn, c ≠ ':')
    (hhd : isSpaceC (fn.headD 'x') = false) :
    parseFn (' ' :: (fn ++ ':' :: r)) = some ([' '], fn, r) := by
  cases fn with
  | nil => exact absurd rfl hne
  | cons fc ft =>
    simp only [List.headD] at hhd
    have h2 := takeWhile_app_pos (fun ch => decide (ch ≠ ':')) (fc :: ft) ':' r
      (fun ch hc => by simpa using hnc ch hc) (by simp)
    simp only [List.cons_append] at h2
    have e1 : (' ' :: fc :: (ft ++ ':' :: r)).takeWhile isSpaceC = [' '] := by
      rw [List.takeWhile_cons_of_pos (by decide)]
      rw [List.takeWhile_cons_of_neg (by simp [hhd])]
    have e2 : (' ' :: fc :: (ft ++ ':' :: r)).dropWhile isSpaceC
        = fc :: (ft ++ ':' :: r) := by
      rw [List.dropWhile_cons_of_pos (by decide)]
      rw [List.dropWhile_cons_of_neg (by simp [hhd])]
    show parseFn (' ' :: fc :: (ft ++ ':' :: r)) = some ([' '], fc :: ft, r)
    unfold parseFn
    simp only []
    rw [e1, e2, h2.1, h2.2]
    rfl

theorem parseMsg_app (m : Str) (hne : m ≠ []) (hnl : ∀ c ∈ m, c ≠ '\n')
    (hhd : isSpaceC (m.headD 'x') = false) :
    parseMsg (' ' :: m) = some ([' '], m, []) := by
  cases m with
  | nil => exact absurd rfl hne
  | cons mc mt =>
    simp only [List.headD] at hhd
    have e1 : (' ' :: mc :: mt).takeWhile isSpaceC = [' '] := by
      rw [List.takeWhile_cons_of_pos (by decide)]
      rw [List.takeWhile_cons_of_neg (by simp [hhd])]
    have e2 : (' ' :: mc :: mt).dropWhile isSpaceC = mc :: mt := by
      rw [List.dropWhile_cons_of_pos (by decide)]
      rw [List.dropWhile_cons_of_neg (by simp [hhd])]
    have e3 : (mc :: mt).takeWhile (fun ch => decide (ch ≠ '\n')) = mc :: mt :=
      List.takeWhile_eq_self_iff.mpr (fun ch hc => by simpa using hnl ch hc)
    have e4 : (mc :: mt).dropWhile (fun ch => decide (ch ≠ '\n')) = [] :=
      List.dropWhile_eq_nil_iff.mpr (fun ch hc => by simpa using hnl ch hc)
    unfold parseMsg
    simp only []
    rw [e1, e2, e3, e4]
    rfl


theorem space_not_hex (ch : Char) (h : isSpaceC ch = true) : isHexC ch = false := by
  simp [isSpaceC] at h
  rcases h with ((((h | h) | h) | h) | h) | h <;> subst h <;> decide

theorem hex_not_space (ch : Char) (h : isHexC ch = true) : isSpaceC ch = false := by
  cases hs : isSpaceC ch
  · rfl
  · rw [space_not_hex ch hs] at h
    exact absurd h (by decide)

theorem headD_mem (l : Str) (d : Char) (h : l ≠ []) : l.headD d ∈ l := by
  cases l with
  | nil => exact absurd rfl h
  | cons c t => simp

theorem getLastD_mem (l : Str) (d : Char) (h : l ≠ []) : l.getLastD d ∈ l := by
  induction l generalizing d with
  | nil => exact absurd rfl h
  | cons c t ih =>
    rw [List.getLastD_cons]
    cases ht : t with
    | nil => simp [List.getLastD]
    | cons c2 t2 =>
      have h2 := ih c (by simp [ht])
      rw [ht] at h2
      exact List.mem_cons_of_mem c h2

theorem getLastD_irrel (l : Str) (d1 d2 : Char) (h : l ≠ []) :
    l.getLastD d1 = l.getLastD d2 := by
  cases hl : l.getLast? with
  | none =>
    exact absurd (List.getLast?_eq_none.mp hl) h
  | some x =>
    rw [List.getLastD_eq_getLast?, List.getLastD_eq_getLast?, hl]
    rfl

theorem getLastD_cons_ne (c : Char) (l : Str) (d : Char) (h : l ≠ []) :
    (c :: l).getLastD d = l.getLastD d := by
  rw [List.getLastD_cons]
  exact getLastD_irrel l c d h

theorem getLastD_append_ne (l m : Str) (d : Char) (h : m ≠ []) :
    (l ++ m).getLastD d = m.getLastD d := by
  rw [List.getLastD_eq_getLast?, List.getLastD_eq_getLast?]
  rw [← List.head?_reverse, ← List.head?_reverse]
  rw [List.reverse_append]
  cases hm : m.reverse with
  | nil =>
    have : m = [] := by simpa using congrArg List.reverse hm
    exact absurd this h
  | cons x xs => simp


/-- The layout of one grammar-conforming log line built from its fields:
priority in angle brackets, timestamp, a space, the optional device id
(empty when absent), the bracketed millis and colon, a space, the
bracketed level and core, a space, the function text, colon, space, and
the message. -/
def renderLine (pr ts devPart mill lvl core fn msg : Str) : Str :=
  '<' :: pr ++ '>' :: ts ++ ' ' :: devPart ++ '[' :: mill ++ ']' :: ':'
    :: ' ' :: '[' :: lvl ++ ']' :: '[' :: 'C' :: 'o' :: 'r' :: 'e' :: core
    ++ ']' :: ' ' :: fn ++ ':' :: ' ' :: msg

theorem expectCore_app (r : Str) :
    expectS ('[' :: 'C' :: 'o' :: 'r' :: 'e' :: []) ('[' :: 'C' :: 'o' :: 'r'
      :: 'e' :: r) = some r := rfl

/-- The first character of a rendered line. -/
theorem renderLine_headD (pr ts devPart mill lvl core fn msg : Str) :
    (renderLine pr ts devPart mill lvl core fn msg).headD 'x' = '<' := by
  simp [renderLine, List.cons_append]

/-- The last character of a rendered line is the last of the message. -/
theorem renderLine_getLastD (pr ts devPart mill lvl core fn msg : Str)
    (h : msg ≠ []) :
    (renderLine pr ts devPart mill lvl core fn msg).getLastD 'x'
      = msg.getLastD 'x' := by
  simp only [renderLine, List.cons_append, List.append_assoc]
  rw [getLastD_cons_ne _ _ _ (by simp [h])]
  rw [getLastD_append_ne _ _ _ (by simp [h])]
  rw [getLastD_cons_ne _ _ _ (by simp [h])]
  rw [getLastD_append_ne _ _ _ (by simp [h])]
  rw [getLastD_cons_ne _ _ _ (by simp [h])]
  rw [getLastD_append_ne _ _ _ (by simp [h])]
  rw [getLastD_cons_ne _ _ _ (by simp [h])]
  rw [getLastD_append_ne _ _ _ (by simp [h])]
  rw [getLastD_cons_ne _ _ _ (by simp [h])]
  rw [getLastD_cons_ne _ _ _ (by simp [h])]
  rw [getLastD_cons_ne _ _ _ (by simp [h])]
  rw [getLastD_cons_ne _ _ _ (by simp [h])]
  rw [getLastD_append_ne _ _ _ (by simp [h])]
  rw [getLastD_cons_ne _ _ _ (by simp [h])]
  rw [getLastD_cons_ne _ _ _ (by simp [h])]
  rw [getLastD_cons_ne _ _ _ (by simp [h])]
  rw [getLastD_cons_ne _ _ _ (by simp [h])]
  rw [getLastD_cons_ne _ _ _ (by simp [h])]
  rw [getLastD_cons_ne _ _ _ (by simp [h])]
  rw [getLastD_append_ne _ _ _ (by simp [h])]
  rw [getLastD_cons_ne _ _ _ (by simp [h])]
  rw [getLastD_cons_ne _ _ _ (by simp [h])]
  rw [getLastD_append_ne _ _ _ (by simp [h])]
  rw [getLastD_cons_ne _ _ _ (by simp [h])]
  rw [getLastD_cons_ne _ _ _ h]


theorem takeWhile_cons_app (p : Char → Bool) (tc : Char) (tt : Str) (x : Char)
    (r : Str) (ht : ∀ c ∈ tc :: tt, p c = true) (hx : p x = false) :
    (tc :: (tt ++ x :: r)).takeWhile p = tc :: tt
      ∧ (tc :: (tt ++ x :: r)).dropWhile p = x :: r := by
  have := takeWhile_app_pos p (tc :: tt) x r ht hx
  simpa [List.cons_append] using this

theorem takeW1_single_space (x : Char) (r : Str) (hx : isSpaceC x = false) :
    takeW1 isSpaceC (' ' :: x :: r) = some ([' '], x :: r) := by
  have := takeW1_app isSpaceC [' '] x r (by intro c hc; simp at hc; subst hc; decide)
    hx (by decide)
  simpa using this

/-- Completeness of the regex match on a rendered line: every group comes
back verbatim. -/
theorem parseCore_render (pr a b c dd e f g devPart mill lvl core fn msg : Str)
    (hpr : pr ≠ []) (hprx : ∀ x ∈ pr, isDigitC x = true)
    (ha : a.length = 4) (hax : ∀ x ∈ a, isDigitC x = true)
    (hb : b.length = 2) (hbx : ∀ x ∈ b, isDigitC x = true)
    (hc : c.length = 2) (hcx : ∀ x ∈ c, isDigitC x = true)
    (hd : dd.length = 2) (hdx : ∀ x ∈ dd, isDigitC x = true)
    (he : e.length = 2) (hex : ∀ x ∈ e, isDigitC x = true)
    (hf : f.length = 2) (hfx : ∀ x ∈ f, isDigitC x = true)
    (hg : g ≠ []) (hgx : ∀ x ∈ g, isDigitC x = true)
    (hdev : devPart = [] ∨ (devPart ≠ [] ∧ ∀ x ∈ devPart, isHexC x = true))
    (hmill : mill ≠ []) (hmillx : ∀ x ∈ mill, isDigitC x = true)
    (hlvl : lvl ≠ []) (hlvlx : ∀ x ∈ lvl, x ≠ ']')
    (hcore : core ≠ []) (hcorex : ∀ x ∈ core, isDigitC x = true)
    (hfn : fn ≠ []) (hfnx : ∀ x ∈ fn, x ≠ ':')
    (hfnh : isSpaceC (fn.headD 'x') = false)
    (hmsg : msg ≠ []) (hmsgx : ∀ x ∈ msg, x ≠ '\n')
    (hmsgh : isSpaceC (msg.headD 'x') = false) :
    parseCore (renderLine pr
        (a ++ '-' :: b ++ '-' :: c ++ 'T' :: dd ++ ':' :: e ++ ':' :: f
          ++ '.' :: g ++ ['Z']) devPart mill lvl core fn msg)
      = some { pr := pr,
               ts := a ++ '-' :: b ++ '-' :: c ++ 'T' :: dd ++ ':' :: e
                 ++ ':' :: f ++ '.' :: g ++ ['Z'],
               deviceOpt := if devPart.isEmpty then none else some devPart,
               mill := mill, lvl := lvl, coreDigits := core, fnRaw := fn,
               msg := msg } := by
  rcases hdev with hdev | ⟨hdevne, hdevhex⟩
  · subst hdev
    unfold parseCore renderLine
    simp only [List.cons_append, List.append_assoc, List.nil_append]
    rw [expectC_self]
    simp only []
    rw [takeW1_app isDigitC pr '>' _ hprx (by decide) hpr]
    simp only []
    rw [expectC_self]
    simp only []
    rw [parseTimestamp_app a b c dd e f g _ ha hax hb hbx hc hcx hd hdx
      he hex hf hfx hg hgx]
    simp only []
    rw [takeW1_single_space '[' _ (by decide)]
    simp only []
    rw [List.takeWhile_cons_of_neg (p := isHexC) (by decide)]
    rw [List.dropWhile_cons_of_neg (p := isHexC) (by decide)]
    rw [expectC_self]
    simp only []
    rw [takeW1_app isDigitC mill ']' _ hmillx (by decide) hmill]
    simp only []
    rw [expectC_self]
    simp only []
    rw [expectC_self]
    simp only []
    rw [takeW1_single_space '[' _ (by decide)]
    simp only []
    rw [expectC_self]
    simp only []
    rw [takeW1_app (fun ch => ch ≠ ']') lvl ']' _
      (fun ch hc => by simpa using hlvlx ch hc) (by simp) hlvl]
    simp only []
    rw [expectC_self]
    simp only []
    rw [expectCore_app]
    simp only []
    rw [takeW1_app isDigitC core ']' _ hcorex (by decide) hcore]
    simp only []
    rw [expectC_self]
    simp only []
    rw [parseFn_app fn _ hfn hfnx hfnh]
    simp only []
    rw [parseMsg_app msg hmsg hmsgx hmsgh]
  · cases hdp : devPart with
    | nil => exact absurd hdp hdevne
    | cons dc dt =>
    subst hdp
    unfold parseCore renderLine
    simp only [List.cons_append, List.append_assoc, List.nil_append]
    rw [expectC_self]
    simp only []
    rw [takeW1_app isDigitC pr '>' _ hprx (by decide) hpr]
    simp only []
    rw [expectC_self]
    simp only []
    rw [parseTimestamp_app a b c dd e f g _ ha hax hb hbx hc hcx hd hdx
      he hex hf hfx hg hgx]
    simp only []
    rw [takeW1_single_space dc _ (hex_not_space dc (hdevhex dc (by simp)))]
    simp only []
    rw [(takeWhile_cons_app isHexC dc dt '[' _ hdevhex (by decide)).1,
      (takeWhile_cons_app isHexC dc dt '[' _ hdevhex (by decide)).2]
    rw [expectC_self]
    simp only []
    rw [takeW1_app isDigitC mill ']' _ hmillx (by decide) hmill]
    simp only []
    rw [expectC_self]
    simp only []
    rw [expectC_self]
    simp only []
    rw [takeW1_single_space '[' _ (by decide)]
    simp only []
    rw [expectC_self]
    simp only []
    rw [takeW1_app (fun ch => ch ≠ ']') lvl ']' _
      (fun ch hc => by simpa using hlvlx ch hc) (by simp) hlvl]
    simp only []
    rw [expectC_self]
    simp only []
    rw [expectCore_app]
    simp only []
    rw [takeW1_app isDigitC core ']' _ hcorex (by decide) hcore]
    simp only []
    rw [expectC_self]
    simp only []
    rw [parseFn_app fn _ hfn hfnx hfnh]
    simp only []
    rw [parseMsg_app msg hmsg hmsgx hmsgh]


/-- C4 as amended: parsing a grammar-conforming line extracts the literal
field values, except that the level is lowercased, the function and
message are stripped of surrounding whitespace (here rendered already
stripped), and the device id is kept exactly as captured, uppercase hex
included, with unknown substituted when the device id is absent. -/
theorem C4_conforming_line_fields
    (pr a b c dd e f g devPart mill lvl core fn msg : Str)
    (hpr : pr ≠ []) (hprx : ∀ x ∈ pr, isDigitC x = true)
    (ha : a.length = 4) (hax : ∀ x ∈ a, isDigitC x = true)
    (hb : b.length = 2) (hbx : ∀ x ∈ b, isDigitC x = true)
    (hc : c.length = 2) (hcx : ∀ x ∈ c, isDigitC x = true)
    (hd : dd.length = 2) (hdx : ∀ x ∈ dd, isDigitC x = true)
    (he : e.length = 2) (hex : ∀ x ∈ e, isDigitC x = true)
    (hf : f.length = 2) (hfx : ∀ x ∈ f, isDigitC x = true)
    (hg : g ≠ []) (hgx : ∀ x ∈ g, isDigitC x = true)
    (hdev : devPart = [] ∨ (devPart ≠ [] ∧ ∀ x ∈ devPart, isHexC x = true))
    (hmill : mill ≠ []) (hmillx : ∀ x ∈ mill, isDigitC x = true)
    (hlvl : lvl ≠ []) (hlvlx : ∀ x ∈ lvl, x ≠ ']')
    (hcore : core ≠ []) (hcorex : ∀ x ∈ core, isDigitC x = true)
    (hfn : fn ≠ []) (hfnx : ∀ x ∈ fn, x ≠ ':')
    (hfnh : isSpaceC (fn.headD 'x') = false)
    (hfnl : isSpaceC (fn.getLastD 'x') = false)
    (hmsg : msg ≠ []) (hmsgx : ∀ x ∈ msg, x ≠ '\n')
    (hmsgh : isSpaceC (msg.headD 'x') = false)
    (hmsgl : isSpaceC (msg.getLastD 'x') = false) :
    parse (renderLine pr
        (a ++ '-' :: b ++ '-' :: c ++ 'T' :: dd ++ ':' :: e ++ ':' :: f
          ++ '.' :: g ++ ['Z']) devPart mill lvl core fn msg)
      = some { priority := digitsToNat pr,
               timestamp := a ++ '-' :: b ++ '-' :: c ++ 'T' :: dd ++ ':'
                 :: e ++ ':' :: f ++ '.' :: g ++ ['Z'],
               device := if devPart.isEmpty
                 then ('u' :: 'n' :: 'k' :: 'n' :: 'o' :: 'w' :: 'n' :: [])
                 else devPart,
               millis := digitsToNat mill,
               level := toLowerStr lvl,
               core := digitsToNat core,
               function := fn, message := msg,
               raw := renderLine pr
                 (a ++ '-' :: b ++ '-' :: c ++ 'T' :: dd ++ ':' :: e ++ ':'
                   :: f ++ '.' :: g ++ ['Z']) devPart mill lvl core fn msg } := by
  unfold parse
  rw [stripStr_eq_self _ (by rw [renderLine_headD]; decide)
    (by rw [renderLine_getLastD _ _ _ _ _ _ _ _ hmsg]; exact hmsgl)]
  rw [parseCore_render pr a b c dd e f g devPart mill lvl core fn msg
    hpr hprx ha hax hb hbx hc hcx hd hdx he hex hf hfx hg hgx hdev
    hmill hmillx hlvl hlvlx hcore hcorex hfn hfnx hfnh hmsg hmsgx hmsgh]
  simp only []
  have hfneq : stripStr fn = fn := stripStr_eq_self fn hfnh hfnl
  have hmsgeq : stripStr msg = msg := stripStr_eq_self msg hmsgh hmsgl
  rcases hdev with hdev | ⟨hdevne, hdevhex⟩
  · subst hdev
    simp [hfneq, hmsgeq]
  · have hds : stripStr devPart = devPart := stripStr_eq_self devPart
      (hex_not_space _ (hdevhex _ (headD_mem devPart 'x' hdevne)))
      (hex_not_space _ (hdevhex _ (getLastD_mem devPart 'x' hdevne)))
    cases devPart with
    | nil => exact absurd rfl hdevne
    | cons dc dt => simp [hfneq, hmsgeq, hds]

/-- C4 counterexample: a grammar-conforming line with an uppercase hex
device id and uppercase level parses to a record whose device keeps the
uppercase spelling (not normalized to lowercase hex) and whose level is
lowercased (not the literal input text), refuting the claim as stated. -/
theorem C4_cex :
    (parse "<14>2025-01-01T00:00:00.000Z AB12CD34EF56[50]: [INFO][Core0] f[g]: hi".toList).map
        LogRec.device = some "AB12CD34EF56".toList
    ∧ "AB12CD34EF56".toList ≠ toLowerStr "AB12CD34EF56".toList
    ∧ (parse "<14>2025-01-01T00:00:00.000Z AB12CD34EF56[50]: [INFO][Core0] f[g]: hi".toList).map
        LogRec.level = some "info".toList
    ∧ ("info".toList : Str) ≠ "INFO".toList := by
  decide

theorem C4_conforming_line_fields_witness :
    parse (renderLine ('1' :: '4' :: [])
        (('2' :: '0' :: '2' :: '5' :: []) ++ '-' :: ('0' :: '1' :: [])
          ++ '-' :: ('0' :: '1' :: []) ++ 'T' :: ('0' :: '0' :: [])
          ++ ':' :: ('0' :: '0' :: []) ++ ':' :: ('0' :: '0' :: [])
          ++ '.' :: ('0' :: '0' :: '0' :: []) ++ ['Z'])
        ('a' :: 'b' :: []) ('5' :: '0' :: []) ('I' :: 'N' :: 'F' :: 'O' :: [])
        ('0' :: []) ('f' :: []) ('h' :: 'i' :: []))
      = some { priority := digitsToNat ('1' :: '4' :: []),
               timestamp := ('2' :: '0' :: '2' :: '5' :: []) ++ '-'
                 :: ('0' :: '1' :: []) ++ '-' :: ('0' :: '1' :: []) ++ 'T'
                 :: ('0' :: '0' :: []) ++ ':' :: ('0' :: '0' :: []) ++ ':'
                 :: ('0' :: '0' :: []) ++ '.' :: ('0' :: '0' :: '0' :: [])
                 ++ ['Z'],
               device := if ('a' :: 'b' :: []).isEmpty
                 then ('u' :: 'n' :: 'k' :: 'n' :: 'o' :: 'w' :: 'n' :: [])
                 else ('a' :: 'b' :: []),
               millis := digitsToNat ('5' :: '0' :: []),
               level := toLowerStr ('I' :: 'N' :: 'F' :: 'O' :: []),
               core := digitsToNat ('0' :: []),
               function := ('f' :: []), message := ('h' :: 'i' :: []),
               raw := renderLine ('1' :: '4' :: [])
                 (('2' :: '0' :: '2' :: '5' :: []) ++ '-' :: ('0' :: '1' :: [])
                   ++ '-' :: ('0' :: '1' :: []) ++ 'T' :: ('0' :: '0' :: [])
                   ++ ':' :: ('0' :: '0' :: []) ++ ':' :: ('0' :: '0' :: [])
                   ++ '.' :: ('0' :: '0' :: '0' :: []) ++ ['Z'])
                 ('a' :: 'b' :: []) ('5' :: '0' :: [])
                 ('I' :: 'N' :: 'F' :: 'O' :: []) ('0' :: []) ('f' :: [])
                 ('h' :: 'i' :: []) } :=
  C4_conforming_line_fields ('1' :: '4' :: []) ('2' :: '0' :: '2' :: '5' :: [])
    ('0' :: '1' :: []) ('0' :: '1' :: []) ('0' :: '0' :: []) ('0' :: '0' :: [])
    ('0' :: '0' :: []) ('0' :: '0' :: '0' :: []) ('a' :: 'b' :: [])
    ('5' :: '0' :: []) ('I' :: 'N' :: 'F' :: 'O' :: []) ('0' :: [])
    ('f' :: []) ('h' :: 'i' :: [])
    (by decide) (by decide) (by decide) (by decide) (by decide) (by decide)
    (by decide) (by decide) (by decide) (by decide) (by decide) (by decide)
    (by decide) (by decide) (by decide) (by decide)
    (Or.inr ⟨by decide, by decide⟩)
    (by decide) (by decide) (by decide) (by decide) (by decide) (by decide)
    (by decide) (by decide) (by decide) (by decide) (by decide) (by decide)
    (by decide) (by decide)


/-- Decimal rendering of a number, the model of Python str formatting of
an int. -/
def natDigits (n : Nat) : Str := Nat.toDigits 10 n

/-- Left-justified padding to width seven, the model of the format
specifier applied to the level in _log_to_file. -/
def padTo7 (s : Str) : Str := s ++ List.replicate (7 - s.length) ' '

/-- The structured-format consolidated-log line of _log_to_file, once the
receipt-time and source-address part that precedes the device timestamp
is stripped away. -/
def structuredBody (p : LogRec) : Str :=
  p.timestamp ++ ' ' :: p.device ++ '[' :: natDigits p.millis ++ 'm' :: 's'
    :: ']' :: ' ' :: padTo7 (toUpperStr p.level) ++ ' ' :: '[' :: 'C' :: 'o'
    :: 'r' :: 'e' :: natDigits p.core ++ ']' :: ' ' :: p.function ++ ':'
    :: ' ' :: p.message

theorem space_not_digit (ch : Char) (h : isSpaceC ch = true) :
    isDigitC ch = false := by
  simp [isSpaceC] at h
  rcases h with ((((h | h) | h) | h) | h) | h <;> subst h <;> decide

theorem digit_not_space (ch : Char) (h : isDigitC ch = true) :
    isSpaceC ch = false := by
  cases hs : isSpaceC ch
  · rfl
  · rw [space_not_digit ch hs] at h
    exact absurd h (by decide)

theorem dropWhile_append_single (p : Char → Bool) (xs : Str) (c : Char)
    (h : p c = false) : (xs ++ [c]).dropWhile p = xs.dropWhile p ++ [c] := by
  induction xs with
  | nil => simp [List.dropWhile, h]
  | cons a t ih =>
    by_cases hp : p a = true
    · rw [List.cons_append, List.dropWhile_cons_of_pos hp,
        List.dropWhile_cons_of_pos hp, ih]
    · simp only [Bool.not_eq_true] at hp
      rw [List.cons_append, List.dropWhile_cons_of_neg (by simp [hp]),
        List.dropWhile_cons_of_neg (by simp [hp])]
      simp

theorem stripStr_cons (c : Char) (t : Str) (h : isSpaceC c = false) :
    stripStr (c :: t) = c :: dropTrailing isSpaceC t := by
  unfold stripStr dropTrailing
  rw [List.dropWhile_cons_of_neg (by simp [h])]
  rw [List.reverse_cons]
  rw [dropWhile_append_single isSpaceC t.reverse c h]
  rw [List.reverse_append]
  rfl

/-- C5 as amended: the structured-format consolidated-log line, stripped
of its receipt-time and source-address part, does not re-parse under the
section 4.1 grammar: it starts with the timestamp digit instead of the
priority in angle brackets, so SyslogParser.parse reports no match. -/
theorem C5_structured_line_not_reparsed (p : LogRec) (h : Char) (t0 : Str)
    (hts : p.timestamp = h :: t0) (hd : isDigitC h = true) :
    parse (structuredBody p) = none := by
  have hne : h ≠ '<' := by
    intro heq
    rw [heq] at hd
    exact absurd hd (by decide)
  unfold parse
  rw [show structuredBody p = h :: (t0 ++ ' ' :: p.device ++ '[' ::
      natDigits p.millis ++ 'm' :: 's' :: ']' :: ' '
      :: padTo7 (toUpperStr p.level) ++ ' ' :: '[' :: 'C' :: 'o' :: 'r'
      :: 'e' :: natDigits p.core ++ ']' :: ' ' :: p.function ++ ':' :: ' '
      :: p.message) from by rw [structuredBody, hts]; simp]
  rw [stripStr_cons h _ (digit_not_space h hd)]
  unfold parseCore
  rw [show expectC '<' (h :: dropTrailing isSpaceC (t0 ++ ' ' :: p.device
      ++ '[' :: natDigits p.millis ++ 'm' :: 's' :: ']' :: ' '
      :: padTo7 (toUpperStr p.level) ++ ' ' :: '[' :: 'C' :: 'o' :: 'r'
      :: 'e' :: natDigits p.core ++ ']' :: ' ' :: p.function ++ ':' :: ' '
      :: p.message)) = none from by simp [expectC, hne]]

/-- C5 counterexample: for a concrete parsed record, the structured line
stripped of its prefix yields no match, so no record with equal fields is
recovered; the round-trip claim fails. -/
theorem C5_cex :
    parse (structuredBody
      { priority := 14, timestamp := "2025-01-01T00:00:00.000Z".toList,
        device := "001122334455".toList, millis := 50000,
        level := "info".toList, core := 0,
        function := "src/main.cpp[loop]".toList,
        message := "hello".toList, raw := [] }) = none := by
  decide

theorem C5_structured_line_not_reparsed_witness :
    parse (structuredBody
      { priority := 16, timestamp := "2025-08-08T18:36:33.275Z".toList,
        device := "588c81c47a98".toList, millis := 9313286,
        level := "debug".toList, core := 1,
        function := "src/utils.cpp[printDeviceStatusDynamic]".toList,
        message := "Message".toList, raw := [] }) = none :=
  C5_structured_line_not_reparsed
    { priority := 16, timestamp := "2025-08-08T18:36:33.275Z".toList,
      device := "588c81c47a98".toList, millis := 9313286,
      level := "debug".toList, core := 1,
      function := "src/utils.cpp[printDeviceStatusDynamic]".toList,
      message := "Message".toList, raw := [] }
    '2' "025-08-08T18:36:33.275Z".toList (by decide) (by decide)


/-!
Session and file-key bookkeeping for the per-device file invariants.
-/

/-- The device part of a session key: everything before the first
underscore. -/
def devKey (k : Str) : Str := k.takeWhile (fun c => c ≠ '_')

theorem devKey_app (d ts : Str) (h : '_' ∉ d) :
    devKey (d ++ '_' :: ts) = d := by
  unfold devKey
  exact (takeWhile_app_pos (fun c => decide (c ≠ '_')) d '_' ts
    (fun c hc => by simp; intro he; exact h (he ▸ hc)) (by simp)).1

theorem key_eq_device (d1 ts1 d2 ts2 : Str) (h1 : '_' ∉ d1) (h2 : '_' ∉ d2)
    (h : d1 ++ '_' :: ts1 = d2 ++ '_' :: ts2) : d1 = d2 ∧ ts1 = ts2 := by
  have hd : d1 = d2 := by
    have := congrArg devKey h
    rwa [devKey_app d1 ts1 h1, devKey_app d2 ts2 h2] at this
  subst hd
  refine ⟨rfl, ?_⟩
  have := List.append_cancel_left h
  injection this

theorem startsKey_iff (d1 d2 ts2 : Str) (h1 : '_' ∉ d1) (h2 : '_' ∉ d2) :
    startsWithStr (d1 ++ ['_']) (d2 ++ '_' :: ts2) = true ↔ d1 = d2 := by
  constructor
  · intro h
    obtain ⟨r, hr⟩ := (startsWithStr_iff (d1 ++ ['_']) (d2 ++ '_' :: ts2)).mp h
    rw [List.append_assoc] at hr
    exact (key_eq_device d2 ts2 d1 r h2 h1 hr).1.symm
  · intro h
    subst h
    refine (startsWithStr_iff _ _).mpr ⟨ts2, ?_⟩
    rw [List.append_assoc]
    rfl

theorem findFirst_some (p : Str → Bool) (l : List Str) (k : Str)
    (h : findFirst p l = some k) : k ∈ l ∧ p k = true := by
  induction l with
  | nil => simp [findFirst] at h
  | cons a t ih =>
    simp only [findFirst] at h
    by_cases ha : p a = true
    · rw [if_pos ha] at h
      injection h with h
      subst h
      exact ⟨by simp, ha⟩
    · rw [if_neg (by simpa using ha)] at h
      obtain ⟨hm, hp⟩ := ih h
      exact ⟨by simp [hm], hp⟩

theorem findFirst_none (p : Str → Bool) (l : List Str)
    (h : findFirst p l = none) : ∀ k ∈ l, p k = false := by
  induction l with
  | nil => simp
  | cons a t ih =>
    simp only [findFirst] at h
    by_cases ha : p a = true
    · rw [if_pos ha] at h
      exact Option.noConfusion h
    · rw [if_neg (by simpa using ha)] at h
      intro k hk
      simp at hk
      rcases hk with hk | hk
      · subst hk
        simpa using ha
      · exact ih h k hk

theorem mem_removeKey (k k0 : Str) (l : List Str) (h : k ∈ removeKey k0 l) :
    k ∈ l := by
  induction l with
  | nil => simpa [removeKey] using h
  | cons a t ih =>
    simp only [removeKey] at h
    by_cases ha : a = k0
    · rw [if_pos ha] at h
      simp [h]
    · rw [if_neg ha] at h
      simp at h
      rcases h with h | h
      · simp [h]
      · simp [ih h]

theorem removeKey_sublist (k0 : Str) (l : List Str) :
    (removeKey k0 l).Sublist l := by
  induction l with
  | nil => simp [removeKey]
  | cons a t ih =>
    simp only [removeKey]
    by_cases ha : a = k0
    · rw [if_pos ha]
      exact List.sublist_cons_of_sublist a (List.Sublist.refl t)
    · rw [if_neg ha]
      exact List.Sublist.cons₂ a ih

theorem not_mem_removeKey_self (k0 : Str) (l : List Str) (h : l.Nodup) :
    k0 ∉ removeKey k0 l := by
  induction l with
  | nil => simp [removeKey]
  | cons a t ih =>
    simp only [removeKey]
    by_cases ha : a = k0
    · rw [if_pos ha]
      subst ha
      exact (List.nodup_cons.mp h).1
    · rw [if_neg ha]
      intro hm
      simp at hm
      rcases hm with hm | hm
      · exact ha hm.symm
      · exact ih (List.nodup_cons.mp h).2 hm

theorem pairwise_nodup (l : List Str)
    (h : List.Pairwise (fun k1 k2 => devKey k1 ≠ devKey k2) l) : l.Nodup := by
  refine h.imp ?_
  intro a b hne heq
  exact hne (by rw [heq])

theorem hex_ne_underscore (c : Char) (h : isHexC c = true) : c ≠ '_' := by
  intro he
  rw [he] at h
  exact absurd h (by decide)

theorem lowhex_ne_underscore (c : Char) (h : isLowerHexC c = true) : c ≠ '_' := by
  intro he
  rw [he] at h
  exact absurd h (by decide)

theorem hex_word (c : Char) (h : isHexC c = true) : isWordC c = true := by
  simp only [isHexC, Bool.or_eq_true, Bool.and_eq_true] at h
  simp only [isWordC, Bool.or_eq_true, Bool.and_eq_true]
  rcases h with (h | ⟨h1, h2⟩) | ⟨h1, h2⟩
  · exact Or.inl (Or.inl (Or.inl h))
  · refine Or.inl (Or.inl (Or.inr ⟨h1, ?_⟩))
    simp only [decide_eq_true_eq] at h2 ⊢
    exact le_trans h2 (by decide)
  · refine Or.inl (Or.inr ⟨h1, ?_⟩)
    simp only [decide_eq_true_eq] at h2 ⊢
    exact le_trans h2 (by decide)

/-- The extracted device id of any parsed device field contains no
underscore. -/
theorem extract_no_underscore (dev : Str)
    (h : (∀ c ∈ dev, isHexC c = true)
      ∨ dev = ('u' :: 'n' :: 'k' :: 'n' :: 'o' :: 'w' :: 'n' :: [])) :
    '_' ∉ extractDeviceId dev := by
  rcases h with h | h
  · unfold extractDeviceId
    by_cases hcond : 12 ≤ (stripStr dev).length
        && ((stripStr dev).drop ((stripStr dev).length - 12)).all isLowerHexC
    · rw [if_pos hcond]
      simp only [Bool.and_eq_true, List.all_eq_true] at hcond
      intro hm
      exact lowhex_ne_underscore '_' (hcond.2 '_' hm) rfl
    · rw [if_neg hcond]
      intro hm
      simp only [List.mem_map] at hm
      obtain ⟨c, hc, hceq⟩ := hm
      have hhex : isHexC c = true := h c (mem_stripStr c dev hc)
      by_cases hw : isWordC c = true
      · rw [if_pos hw] at hceq
        exact hex_ne_underscore c hhex hceq
      · exact hw (hex_word c hhex)
  · subst h
    decide


/-- The file-sink invariants: every open key belongs to the current
session of its underscore-free device; open keys have pairwise distinct
devices; every file on disk holds records of a single session; and the
file of every current session holds only that session's ghost identifier. -/
structure InvSt (st : LState) : Prop where
  keys : ∀ k ∈ st.fileKeys, ∃ d ts, ('_' ∉ d) ∧ k = d ++ '_' :: ts
    ∧ alookup d st.sessionIds = some ts
  pw : List.Pairwise (fun k1 k2 => devKey k1 ≠ devKey k2) st.fileKeys
  alleq : ∀ k l, alookup k st.disk = some l → ∀ x ∈ l, ∀ y ∈ l, x = y
  cur : ∀ d ts, alookup d st.sessionIds = some ts → ('_' ∉ d)
    ∧ ∃ n, alookup d st.seqOf = some n
      ∧ ∀ l, alookup (d ++ '_' :: ts) st.disk = some l → ∀ x ∈ l, x = n

theorem invSt_init : InvSt initState := by
  refine ⟨?_, ?_, ?_, ?_⟩
  · intro k hk
    simp [initState] at hk
  · simp [initState]
  · intro k l hl
    simp [initState, alookup] at hl
  · intro d ts hts
    simp [initState, alookup] at hts

/-- Appending one record with the current session identifier to the
current session's file preserves the invariants. -/
theorem logToDeviceFile_preserves (st : LState) (dv sid : Str)
    (inv : InvSt st)
    (hsid : alookup dv st.sessionIds = some sid) :
    InvSt (logToDeviceFile st dv (dv ++ '_' :: sid)) := by
  obtain ⟨hnu, n, hn, hfile⟩ := inv.cur dv sid hsid
  have htag : (alookup dv st.seqOf).getD 0 = n := by rw [hn]; rfl
  refine ⟨?_, ?_, ?_, ?_⟩
  · intro k hk
    exact inv.keys k hk
  · exact inv.pw
  · intro k l hl
    simp only [logToDeviceFile] at hl
    by_cases hk : k = dv ++ '_' :: sid
    · subst hk
      rw [alookup_aset_self] at hl
      injection hl with hl
      subst hl
      intro x hx y hy
      rw [htag] at hx hy
      have hxn : x = n := by
        rcases List.mem_append.mp hx with hx | hx
        · rcases hd : alookup (dv ++ '_' :: sid) st.disk with _ | l0
          · rw [hd] at hx; simp at hx
          · rw [hd] at hx
            exact hfile l0 hd x (by simpa using hx)
        · simpa using hx
      have hyn : y = n := by
        rcases List.mem_append.mp hy with hy | hy
        · rcases hd : alookup (dv ++ '_' :: sid) st.disk with _ | l0
          · rw [hd] at hy; simp at hy
          · rw [hd] at hy
            exact hfile l0 hd y (by simpa using hy)
        · simpa using hy
      rw [hxn, hyn]
    · rw [alookup_aset_ne k (dv ++ '_' :: sid) _ _ (fun he => hk he.symm)] at hl
      exact inv.alleq k l hl
  · intro d2 ts2 hts2
    simp only [logToDeviceFile] at hts2 ⊢
    obtain ⟨hnu2, n2, hn2, hfile2⟩ := inv.cur d2 ts2 hts2
    refine ⟨hnu2, n2, hn2, ?_⟩
    intro l hl
    by_cases hk : d2 ++ '_' :: ts2 = dv ++ '_' :: sid
    · obtain ⟨hde, htse⟩ := key_eq_device d2 ts2 dv sid hnu2 hnu hk
      rw [hk] at hl
      rw [alookup_aset_self] at hl
      injection hl with hl
      subst hl
      intro x hx
      rw [htag] at hx
      have hxn : x = n := by
        rcases List.mem_append.mp hx with hx2 | hx2
        · rcases hdd : alookup (dv ++ '_' :: sid) st.disk with _ | l0
          · rw [hdd] at hx2; simp at hx2
          · rw [hdd] at hx2
            exact hfile l0 hdd x (by simpa using hx2)
        · simpa using hx2
      rw [hde] at hn2
      rw [hn] at hn2
      injection hn2 with h2
      rw [hxn]
      exact h2
    · rw [alookup_aset_ne _ _ _ _ (fun he => hk he.symm)] at hl
      exact hfile2 l hl


/-- The state between the new-session section and the file opening: the
invariants hold except that the fresh session's file may still hold stale
records of an earlier session with the same wall-clock id; no key of the
device is open. -/
structure PreInv (st : LState) (d sid : Str) : Prop where
  keys : ∀ k ∈ st.fileKeys, ∃ dk tsk, ('_' ∉ dk) ∧ k = dk ++ '_' :: tsk
    ∧ alookup dk st.sessionIds = some tsk ∧ dk ≠ d
  pw : List.Pairwise (fun k1 k2 => devKey k1 ≠ devKey k2) st.fileKeys
  alleq : ∀ k l, alookup k st.disk = some l → ∀ x ∈ l, ∀ y ∈ l, x = y
  curO : ∀ d2 ts2, alookup d2 st.sessionIds = some ts2 → d2 ≠ d → ('_' ∉ d2)
    ∧ ∃ n, alookup d2 st.seqOf = some n
      ∧ ∀ l, alookup (d2 ++ '_' :: ts2) st.disk = some l → ∀ x ∈ l, x = n
  curD : alookup d st.sessionIds = some sid ∧ ('_' ∉ d)
    ∧ ∃ n, alookup d st.seqOf = some n

/-- Opening a fresh session file (mode w, truncating the path) restores
the full invariants, whatever the path previously held. -/
theorem openFresh_inv (st : LState) (d sid : Str)
    (hnu : '_' ∉ d)
    (hsid : alookup d st.sessionIds = some sid)
    (hseq : ∃ n, alookup d st.seqOf = some n)
    (hkeys : ∀ k ∈ st.fileKeys, ∃ dk tsk, ('_' ∉ dk) ∧ k = dk ++ '_' :: tsk
      ∧ alookup dk st.sessionIds = some tsk ∧ dk ≠ d)
    (hpw : List.Pairwise (fun k1 k2 => devKey k1 ≠ devKey k2) st.fileKeys)
    (halleq : ∀ k l, alookup k st.disk = some l → ∀ x ∈ l, ∀ y ∈ l, x = y)
    (hcurO : ∀ d2 ts2, alookup d2 st.sessionIds = some ts2 → d2 ≠ d
      → ('_' ∉ d2) ∧ ∃ n, alookup d2 st.seqOf = some n
        ∧ ∀ l, alookup (d2 ++ '_' :: ts2) st.disk = some l → ∀ x ∈ l, x = n) :
    InvSt { st with fileKeys := st.fileKeys ++ [d ++ '_' :: sid],
                    disk := aset (d ++ '_' :: sid) [] st.disk } := by
  refine ⟨?_, ?_, ?_, ?_⟩
  · intro k hk
    simp only [List.mem_append, List.mem_singleton] at hk
    rcases hk with hk | hk
    · obtain ⟨dk, tsk, h1, h2, h3, _⟩ := hkeys k hk
      exact ⟨dk, tsk, h1, h2, h3⟩
    · exact ⟨d, sid, hnu, hk, hsid⟩
  · simp only []
    rw [List.pairwise_append]
    refine ⟨hpw, by simp, ?_⟩
    intro a ha b hb
    simp only [List.mem_singleton] at hb
    subst hb
    obtain ⟨dk, tsk, h1, h2, _, h4⟩ := hkeys a ha
    rw [h2, devKey_app dk tsk h1, devKey_app d sid hnu]
    exact h4
  · intro k l hl
    simp only [] at hl
    by_cases hk : k = d ++ '_' :: sid
    · subst hk
      rw [alookup_aset_self] at hl
      injection hl with hl
      subst hl
      intro x hx
      simp at hx
    · rw [alookup_aset_ne _ _ _ _ (fun he => hk he.symm)] at hl
      exact halleq k l hl
  · intro d2 ts2 hts2
    simp only [] at hts2 ⊢
    by_cases hd2 : d2 = d
    · subst hd2
      rw [hts2] at hsid
      injection hsid with he
      obtain ⟨n, hn⟩ := hseq
      refine ⟨hnu, n, hn, ?_⟩
      intro l hl
      rw [← he] at hl
      rw [alookup_aset_self] at hl
      injection hl with hl
      subst hl
      intro x hx
      simp at hx
    · obtain ⟨hnu2, n2, hn2, hcl⟩ := hcurO d2 ts2 hts2 hd2
      refine ⟨hnu2, n2, hn2, ?_⟩
      intro l hl
      rw [alookup_aset_ne _ _ _ _ ?hne] at hl
      · exact hcl l hl
      case hne =>
        intro he
        exact hd2 (key_eq_device d2 ts2 d sid hnu2 hnu he.symm).1

/-- Opening the file after the new-session section restores the full
invariants: the device has no open key, so the branch that truncates the
path is always taken. -/
theorem openFile_pre (st : LState) (d sid : Str) (pre : PreInv st d sid) :
    InvSt (openFileIfAbsent (d ++ '_' :: sid) st) := by
  obtain ⟨hsid, hnu, hseq⟩ := pre.curD
  have hcont : st.fileKeys.contains (d ++ '_' :: sid) = false := by
    by_cases hc : st.fileKeys.contains (d ++ '_' :: sid) = true
    · exfalso
      have hm : (d ++ '_' :: sid) ∈ st.fileKeys := List.elem_iff.mp hc
      obtain ⟨dk, tsk, h1, h2, _, h4⟩ := pre.keys _ hm
      exact h4 (key_eq_device dk tsk d sid h1 hnu h2.symm).1
    · simpa using hc
  unfold openFileIfAbsent
  rw [hcont]
  simp only [Bool.false_eq_true, if_false]
  exact openFresh_inv st d sid hnu hsid hseq pre.keys pre.pw pre.alleq pre.curO

/-- Opening the file in the continuation path preserves the invariants:
either the key is already open, or the device has no open key and a fresh
truncated file is created. -/
theorem openFile_full (st : LState) (d sid : Str) (inv : InvSt st)
    (hnu : '_' ∉ d) (hsid : alookup d st.sessionIds = some sid) :
    InvSt (openFileIfAbsent (d ++ '_' :: sid) st) := by
  by_cases hc : st.fileKeys.contains (d ++ '_' :: sid) = true
  · unfold openFileIfAbsent
    rw [hc]
    simp only [if_true]
    exact inv
  · have hcont : st.fileKeys.contains (d ++ '_' :: sid) = false := by
      simpa using hc
    have hkeys : ∀ k ∈ st.fileKeys, ∃ dk tsk, ('_' ∉ dk) ∧ k = dk ++ '_' :: tsk
        ∧ alookup dk st.sessionIds = some tsk ∧ dk ≠ d := by
      intro k hk
      obtain ⟨dk, tsk, h1, h2, h3⟩ := inv.keys k hk
      refine ⟨dk, tsk, h1, h2, h3, ?_⟩
      intro he
      subst he
      rw [h3] at hsid
      injection hsid with he2
      rw [he2] at h2
      rw [← h2] at hc
      exact hc (List.elem_iff.mpr hk)
    have hcurO : ∀ d2 ts2, alookup d2 st.sessionIds = some ts2 → d2 ≠ d
        → ('_' ∉ d2) ∧ ∃ n, alookup d2 st.seqOf = some n
          ∧ ∀ l, alookup (d2 ++ '_' :: ts2) st.disk = some l → ∀ x ∈ l, x = n := by
      intro d2 ts2 hts2 _
      exact inv.cur d2 ts2 hts2
    obtain ⟨_, n, hn, _⟩ := inv.cur d sid hsid
    unfold openFileIfAbsent
    rw [hcont]
    simp only [Bool.false_eq_true, if_false]
    exact openFresh_inv st d sid hnu hsid ⟨n, hn⟩ hkeys inv.pw inv.alleq hcurO

/-- The new-session section leaves the pre-open invariants: the stale key
of the device, when present, is closed and removed, and the fresh session
id and ghost identifier are recorded. -/
theorem newSession_pre (now d : Str) (st : LState) (inv : InvSt st)
    (hnu : '_' ∉ d) : PreInv (newSession now d st) d now := by
  unfold newSession closeOldFile
  simp only []
  cases hf : findFirst (fun k => startsWithStr (d ++ ['_']) k) st.fileKeys with
  | some oldKey =>
    simp only []
    obtain ⟨hmem, hstart⟩ := findFirst_some _ _ _ hf
    obtain ⟨do2, tso, ho1, ho2, ho3⟩ := inv.keys oldKey hmem
    have hdo : d = do2 := by
      rw [ho2] at hstart
      exact (startsKey_iff d do2 tso hnu ho1).mp hstart
    have hnodup : st.fileKeys.Nodup := pairwise_nodup st.fileKeys inv.pw
    refine ⟨?_, ?_, ?_, ?_, ?_⟩
    · intro k hk
      have hkmem : k ∈ st.fileKeys := mem_removeKey k oldKey st.fileKeys hk
      have hkne : k ≠ oldKey := by
        intro he
        subst he
        exact not_mem_removeKey_self k st.fileKeys hnodup hk
      obtain ⟨dk, tsk, h1, h2, h3⟩ := inv.keys k hkmem
      have hdk : dk ≠ d := by
        intro he
        subst he
        have hsym : Symmetric (fun k1 k2 : Str => devKey k1 ≠ devKey k2) := by
          intro a b hab hba
          exact hab hba.symm
        have hdev : devKey k ≠ devKey oldKey :=
          List.Pairwise.forall hsym inv.pw hkmem hmem hkne
        rw [h2, ho2, devKey_app dk tsk h1, devKey_app do2 tso ho1] at hdev
        exact hdev hdo
      refine ⟨dk, tsk, h1, h2, ?_, hdk⟩
      rw [alookup_aset_ne dk d now st.sessionIds hdk.symm]
      exact h3
    · exact inv.pw.sublist (removeKey_sublist oldKey st.fileKeys)
    · exact inv.alleq
    · intro d2 ts2 hts2 hd2
      rw [alookup_aset_ne d2 d now st.sessionIds hd2.symm] at hts2
      obtain ⟨h1, n, h2, h3⟩ := inv.cur d2 ts2 hts2
      refine ⟨h1, n, ?_, h3⟩
      rw [alookup_aset_ne d2 d st.nextSeq st.seqOf hd2.symm]
      exact h2
    · exact ⟨alookup_aset_self d now st.sessionIds, hnu,
        st.nextSeq, alookup_aset_self d st.nextSeq st.seqOf⟩
  | none =>
    simp only []
    have hnone := findFirst_none _ _ hf
    refine ⟨?_, ?_, ?_, ?_, ?_⟩
    · intro k hk
      obtain ⟨dk, tsk, h1, h2, h3⟩ := inv.keys k hk
      have hdk : dk ≠ d := by
        intro he
        subst he
        have := hnone k hk
        rw [h2] at this
        rw [(startsKey_iff dk dk tsk hnu hnu).mpr rfl] at this
        exact Bool.noConfusion this
      refine ⟨dk, tsk, h1, h2, ?_, hdk⟩
      rw [alookup_aset_ne dk d now st.sessionIds hdk.symm]
      exact h3
    · exact inv.pw
    · exact inv.alleq
    · intro d2 ts2 hts2 hd2
      rw [alookup_aset_ne d2 d now st.sessionIds hd2.symm] at hts2
      obtain ⟨h1, n, h2, h3⟩ := inv.cur d2 ts2 hts2
      refine ⟨h1, n, ?_, h3⟩
      rw [alookup_aset_ne d2 d st.nextSeq st.seqOf hd2.symm]
      exact h2
    · exact ⟨alookup_aset_self d now st.sessionIds, hnu,
        st.nextSeq, alookup_aset_self d st.nextSeq st.seqOf⟩


/-- The invariants only concern the open keys, the session map, the ghost
identifiers and the disk; any state sharing those four fields inherits
them. -/
theorem invSt_cast (st st2 : LState) (inv : InvSt st)
    (h1 : st2.fileKeys = st.fileKeys) (h2 : st2.sessionIds = st.sessionIds)
    (h3 : st2.seqOf = st.seqOf) (h4 : st2.disk = st.disk) : InvSt st2 := by
  refine ⟨?_, ?_, ?_, ?_⟩
  · rw [h1, h2]
    exact inv.keys
  · rw [h1]
    exact inv.pw
  · rw [h4]
    exact inv.alleq
  · rw [h2, h3, h4]
    exact inv.cur

/-- After _get_device_log_file the invariants hold, the device has a
current session, and the returned key is that session's key. -/
theorem gdlf_post (now : Str) (st : LState) (p : LogRec) (inv : InvSt st)
    (hnu : '_' ∉ extractDeviceId p.device) :
    InvSt (getDeviceLogFile now st p).1
    ∧ ∃ sid, alookup (extractDeviceId p.device)
          (getDeviceLogFile now st p).1.sessionIds = some sid
        ∧ (getDeviceLogFile now st p).2
            = extractDeviceId p.device ++ '_' :: sid := by
  unfold getDeviceLogFile
  simp only []
  by_cases hr : isRebootHeuristic (containsStr restartMarker p.message)
      (alookup (extractDeviceId p.device) st.lastMillis) p.millis = true
  · rw [hr]
    simp only [Bool.true_or, if_true]
    rw [newSession_sessionIds, alookup_aset_self]
    simp only [Option.getD_some]
    refine ⟨openFile_pre _ _ now (newSession_pre now _ _
      (invSt_cast st _ inv rfl rfl rfl rfl) hnu), now, ?_, rfl⟩
    rw [openFile_sessionIds, newSession_sessionIds]
    exact alookup_aset_self _ _ _
  · rw [Bool.not_eq_true] at hr
    rw [hr]
    simp only [Bool.false_eq_true, if_false, Bool.false_or]
    cases hs : alookup (extractDeviceId p.device) st.sessionIds with
    | none =>
      simp only [Option.isNone_none, if_true]
      rw [newSession_sessionIds, alookup_aset_self]
      simp only [Option.getD_some]
      refine ⟨openFile_pre _ _ now (newSession_pre now _ _
        (invSt_cast st _ inv rfl rfl rfl rfl) hnu), now, ?_, rfl⟩
      rw [openFile_sessionIds, newSession_sessionIds]
      exact alookup_aset_self _ _ _
    | some sid =>
      simp only [Option.isNone_some, Bool.false_eq_true, if_false]
      rw [hs]
      simp only [Option.getD_some]
      refine ⟨openFile_full _ _ sid (invSt_cast st _ inv rfl rfl rfl rfl)
        hnu hs, sid, ?_, rfl⟩
      rw [openFile_sessionIds]
      exact hs


/-- One parsed record preserves the session-file invariants: the
device-file step goes through the session tracker and the current
session's file, and the display and consolidated steps never touch the
open keys, the session maps or the disk. -/
theorem handleParsed_inv (cfg : ConfigM) (now : Str) (st : LState)
    (p : LogRec) (inv : InvSt st) (hnu : '_' ∉ extractDeviceId p.device) :
    InvSt (handleParsed cfg now st p) := by
  unfold handleParsed
  simp only []
  have inv1 : InvSt { st with stats :=
      { st.stats with parsed := st.stats.parsed + 1 } } :=
    invSt_cast st _ inv rfl rfl rfl rfl
  have inv2 : InvSt (if cfg.autoDeviceLogs then
      logToDeviceFile
        (getDeviceLogFile now { st with stats :=
            { st.stats with parsed := st.stats.parsed + 1 } } p).1
        (extractDeviceId p.device)
        (getDeviceLogFile now { st with stats :=
            { st.stats with parsed := st.stats.parsed + 1 } } p).2
    else { st with stats :=
      { st.stats with parsed := st.stats.parsed + 1 } }) := by
    split
    · obtain ⟨invr, sid, hsid, hkey⟩ := gdlf_post now _ p inv1 hnu
      rw [hkey]
      exact logToDeviceFile_preserves _ _ sid invr hsid
    · exact inv1
  by_cases hss : shouldShow cfg.filter p.level p.function = true
  · rw [if_pos hss]
    by_cases hlf : cfg.hasLogFile = true
    · rw [if_pos hlf]
      exact invSt_cast _ _ inv2 rfl rfl rfl rfl
    · rw [if_neg hlf]
      exact invSt_cast _ _ inv2 rfl rfl rfl rfl
  · rw [if_neg hss]
    by_cases hlf : cfg.hasLogFile = true
    · rw [if_pos hlf]
      exact invSt_cast _ _ inv2 rfl rfl rfl rfl
    · rw [if_neg hlf]
      exact invSt_cast _ _ inv2 rfl rfl rfl rfl

/-- Handling any decoded datagram preserves the session-file invariants;
the device identifier extracted from a parsed record never contains an
underscore, so its session keys split unambiguously. -/
theorem handleMessage_inv (cfg : ConfigM) (now : Str) (st : LState)
    (msg : Str) (inv : InvSt st) : InvSt (handleMessage cfg now st msg) := by
  unfold handleMessage
  simp only []
  cases hp : parse msg with
  | none =>
    simp only [hp]
    split
    · exact invSt_cast _ _ inv rfl rfl rfl rfl
    · exact invSt_cast _ _ inv rfl rfl rfl rfl
  | some p =>
    simp only [hp]
    exact handleParsed_inv cfg now _ p (invSt_cast _ _ inv rfl rfl rfl rfl)
      (extract_no_underscore p.device (parse_device_wf msg p hp))

/-- The session-file invariants hold after every run of the listener. -/
theorem runListener_inv (cfg : ConfigM) (events : List (Str × Str)) :
    InvSt (runListener cfg events) := by
  unfold runListener
  have h : ∀ (evs : List (Str × Str)) (st : LState), InvSt st →
      InvSt (evs.foldl (fun s ev => handleMessage cfg ev.1 s ev.2) st) := by
    intro evs
    induction evs with
    | nil =>
      intro st hst
      exact hst
    | cons e es ih =>
      intro st hst
      exact ih _ (handleMessage_inv cfg e.1 st e.2 hst)
  exact h events initState invSt_init

/-- C3: after any run of the listener over any configuration and any
sequence of datagrams, every per-device file on disk holds records of a
single inferred session (all its ghost session identifiers coincide), and
no two open handles belong to the same device: the tracker closes the old
session's handle before the new session's file accepts writes. -/
theorem C3_single_session_per_file (cfg : ConfigM) (events : List (Str × Str)) :
    (∀ k l, alookup k (runListener cfg events).disk = some l →
      ∀ x ∈ l, ∀ y ∈ l, x = y)
    ∧ List.Pairwise (fun k1 k2 => devKey k1 ≠ devKey k2)
        (runListener cfg events).fileKeys := by
  have h := runListener_inv cfg events
  exact ⟨h.alleq, h.pw⟩

theorem C3_single_session_per_file_witness :
    ∀ x ∈ [0], ∀ y ∈ [0], x = y :=
  (C3_single_session_per_file
      { filter := mkLogFilter ('v' :: 'e' :: 'r' :: 'b' :: 'o' :: 's'
          :: 'e' :: []) [] [],
        hasLogFile := false, autoDeviceLogs := true }
      [(('t' :: '1' :: []),
        "<14>2025-01-01T00:00:00.000Z 001122334455[50000]: [INFO][Core0] src/main.cpp[loop]: hello".toList)]).1
    "001122334455_t1".toList [0] (by decide)


/-- C1: with no restart marker in the message text and a recorded
lastSeenMillis, the tracker infers a reboot exactly when the new millis is
under 600000, the recorded value is over 1800000, and the counter
decreased; in particular a recorded 2000000 with new millis 5000 infers a
reboot, while a recorded 100000 with new millis 5000 does not. -/
theorem C1_reboot_heuristic (msg : Str) (last millis : Nat)
    (hm : containsStr restartMarker msg = false) :
    (isRebootHeuristic (containsStr restartMarker msg) (some last) millis = true
      ↔ (millis < 600000 ∧ last > 1800000 ∧ millis < last))
    ∧ isRebootHeuristic false (some 2000000) 5000 = true
    ∧ isRebootHeuristic false (some 100000) 5000 = false := by
  rw [hm]
  refine ⟨?_, by decide, by decide⟩
  simp [isRebootHeuristic, and_assoc]

theorem C1_reboot_heuristic_witness :
    containsStr restartMarker ('h' :: 'i' :: []) = false
    ∧ (isRebootHeuristic (containsStr restartMarker ('h' :: 'i' :: []))
          (some 2000000) 5000 = true
        ↔ (5000 < 600000 ∧ 2000000 > 1800000 ∧ 5000 < 2000000)) :=
  ⟨by decide,
    (C1_reboot_heuristic ('h' :: 'i' :: []) 2000000 5000 (by decide)).1⟩

/-- C7: with the minimum display level warning and empty exclusion lists,
should_show passes exactly the levels warning, error and fatal among the
six recognized ones and suppresses verbose, debug and info, and the level
values are totally ordered verbose, debug, info, warning, error, fatal. -/
theorem C7_warning_threshold :
    (∀ funcField : Str,
        shouldShow (mkLogFilter ('w' :: 'a' :: 'r' :: 'n' :: 'i' :: 'n'
            :: 'g' :: []) [] [])
          ('w' :: 'a' :: 'r' :: 'n' :: 'i' :: 'n' :: 'g' :: []) funcField = true
      ∧ shouldShow (mkLogFilter ('w' :: 'a' :: 'r' :: 'n' :: 'i' :: 'n'
            :: 'g' :: []) [] [])
          ('e' :: 'r' :: 'r' :: 'o' :: 'r' :: []) funcField = true
      ∧ shouldShow (mkLogFilter ('w' :: 'a' :: 'r' :: 'n' :: 'i' :: 'n'
            :: 'g' :: []) [] [])
          ('f' :: 'a' :: 't' :: 'a' :: 'l' :: []) funcField = true
      ∧ shouldShow (mkLogFilter ('w' :: 'a' :: 'r' :: 'n' :: 'i' :: 'n'
            :: 'g' :: []) [] [])
          ('v' :: 'e' :: 'r' :: 'b' :: 'o' :: 's' :: 'e' :: []) funcField = false
      ∧ shouldShow (mkLogFilter ('w' :: 'a' :: 'r' :: 'n' :: 'i' :: 'n'
            :: 'g' :: []) [] [])
          ('d' :: 'e' :: 'b' :: 'u' :: 'g' :: []) funcField = false
      ∧ shouldShow (mkLogFilter ('w' :: 'a' :: 'r' :: 'n' :: 'i' :: 'n'
            :: 'g' :: []) [] [])
          ('i' :: 'n' :: 'f' :: 'o' :: []) funcField = false)
    ∧ levelValue ('v' :: 'e' :: 'r' :: 'b' :: 'o' :: 's' :: 'e' :: [])
        < levelValue ('d' :: 'e' :: 'b' :: 'u' :: 'g' :: [])
    ∧ levelValue ('d' :: 'e' :: 'b' :: 'u' :: 'g' :: [])
        < levelValue ('i' :: 'n' :: 'f' :: 'o' :: [])
    ∧ levelValue ('i' :: 'n' :: 'f' :: 'o' :: [])
        < levelValue ('w' :: 'a' :: 'r' :: 'n' :: 'i' :: 'n' :: 'g' :: [])
    ∧ levelValue ('w' :: 'a' :: 'r' :: 'n' :: 'i' :: 'n' :: 'g' :: [])
        < levelValue ('e' :: 'r' :: 'r' :: 'o' :: 'r' :: [])
    ∧ levelValue ('e' :: 'r' :: 'r' :: 'o' :: 'r' :: [])
        < levelValue ('f' :: 'a' :: 't' :: 'a' :: 'l' :: []) := by
  have hshow : ∀ level funcField : Str,
      shouldShow (mkLogFilter ('w' :: 'a' :: 'r' :: 'n' :: 'i' :: 'n'
          :: 'g' :: []) [] []) level funcField
        = decide (3 ≤ levelValue (toLowerStr level)) := by
    intro level funcField
    unfold mkLogFilter shouldShow
    simp only [List.map_nil, List.isEmpty_nil, Bool.not_true, Bool.and_false,
      Bool.false_and, List.any_nil, Bool.false_eq_true, if_false]
    have h3 : levelValue (toLowerStr ('w' :: 'a' :: 'r' :: 'n' :: 'i'
        :: 'n' :: 'g' :: [])) = 3 := by decide
    rw [h3]
    by_cases h : levelValue (toLowerStr level) < 3
    · rw [if_pos h]
      have hle : ¬ 3 ≤ levelValue (toLowerStr level) := Nat.not_le.mpr h
      simp [hle]
    · rw [if_neg h]
      have hle : 3 ≤ levelValue (toLowerStr level) := Nat.le_of_not_lt h
      simp [hle]
  refine ⟨?_, by decide, by decide, by decide, by decide, by decide⟩
  intro funcField
  refine ⟨?_, ?_, ?_, ?_, ?_, ?_⟩ <;>
  · rw [hshow]
    decide

end UdpLog

